import Mathlib

/-!
# Verification of `rsc.cpp` and `DoTask.c` (nokomis): point sets, minimum-distance
# filter, near-duplicate elimination, regular-spacing detection, CSV persistence

Coordinates (`double` in the source) are rationals. Each arithmetic routine is given
twice: with every operation rounded by a rounding function `fl`, as the source computes
(`keepLoopFl`, `dedupLoopFl`, `existsNearFl`, `walkFl`, ...), and over exact arithmetic
(`keepLoop`, `dedupLoop`, `existsNear`, `walk`, ...), which is the instance `fl = id`.
`roundDouble` is the rounding of IEEE 754 binary64 for finite results.
`std::sort` is a parameter constrained by its contract (a permutation of the input that
is ordered for the comparator); where the order of equal keys matters, the introsort of
libstdc++ is given as `stdSort`. `std::lower_bound` is given by its postcondition on a
partitioned range (the first element that is not less than the value).
-/

namespace Nokomis

/-! ## Data model -/

/-- A point: the coordinate `x` and the attribute map `attrs` (an association list
of key/value strings, opaque payload for the algorithms). -/
structure Point where
  x : ℚ
  attrs : List (String × String)
deriving DecidableEq

/-- A point set: the vector `pts`. -/
structure PointSet where
  pts : List Point
deriving DecidableEq

/-- The exceptions thrown by the source. -/
inductive RscError where
  | invalidArgument (msg : String)
  | runtimeError (msg : String)
deriving DecidableEq

/-! ## Sorting -/

/-- Contract of `std::sort(v.begin(), v.end(), [](a, b){ return a.x < b.x; })`:
the result is a permutation of the input and no later element compares less than
an earlier one. The order of points with equal coordinates is not fixed by it. -/
structure IsSortByX (sortPts : List Point → List Point) : Prop where
  perm : ∀ l, List.Perm (sortPts l) l
  sorted : ∀ l, List.Pairwise (fun a b : Point => ¬ b.x < a.x) (sortPts l)

/-- Ordering of points by coordinate. -/
def leX (a b : Point) : Prop := a.x ≤ b.x

instance leX.decidable : DecidableRel leX := fun a b => inferInstanceAs (Decidable (a.x ≤ b.x))

instance leX.total : IsTotal Point leX := ⟨fun a b => le_total a.x b.x⟩

instance leX.trans : IsTrans Point leX := ⟨fun _ _ _ h1 h2 => le_trans (α := ℚ) h1 h2⟩

instance ltX.antisymm : IsAntisymm Point (fun a b : Point => a.x < b.x) :=
  ⟨fun _ _ h1 h2 => absurd h1 (not_lt_of_gt h2)⟩

/-- A sort by coordinate that keeps points with equal coordinates in input order
(insertion sort). -/
def sortByX (l : List Point) : List Point := List.insertionSort leX l

/-- Result of `std::sort(xs.begin(), xs.end())` on coordinates: the ascending
rearrangement, which is unique for a linear order. -/
def sortAsc (xs : List ℚ) : List ℚ := List.insertionSort (· ≤ ·) xs

/-! ## `existsNear` -/

/-- Result of `std::lower_bound(first, last, v)` on an ascending range: the first element
that is not less than `v`, or `none` for the end iterator. -/
def lowerBound (range : List ℚ) (v : ℚ) : Option ℚ :=
  range.find? (fun y => decide (¬ y < v))

/-- `existsNear(xs, startIdx, target, eps)`: look at the first element at or after
`startIdx` that is `>= target - eps` and test it against the tolerance. -/
def existsNear (xs : List ℚ) (startIdx : Nat) (target eps : ℚ) : Bool :=
  match lowerBound (xs.drop startIdx) (target - eps) with
  | none => false
  | some y => decide (|y - target| ≤ eps)

/-! ## `dedupClose` -/

/-- The scan of `dedupClose`: `back` is `out.back()`, the argument list the elements
`xs[i..]` still to visit; the result is what is pushed onto `out` from here on. -/
def dedupLoop (eps : ℚ) : ℚ → List ℚ → List ℚ
  | _, [] => []
  | back, y :: rest =>
    if |y - back| > eps then y :: dedupLoop eps y rest
    else dedupLoop eps back rest

/-- `dedupClose(xs, eps)`: sort, keep `xs[0]`, then keep each value further than
`eps` from the last kept one. -/
def dedupClose (xs : List ℚ) (eps : ℚ) : List ℚ :=
  if xs.isEmpty then xs
  else
    match sortAsc xs with
    | [] => []
    | x0 :: rest => x0 :: dedupLoop eps x0 rest

/-! ## `filterByMinDistance` -/

/-- The scan of `filterByMinDistance`: `lastKept` is the coordinate of the last kept
point, the argument list the points `v[i..]` still to visit; the result is what is
pushed onto `out.pts` from here on. -/
def keepLoop (minDist : ℚ) : ℚ → List Point → List Point
  | _, [] => []
  | lastKept, p :: rest =>
    if |p.x - lastKept| ≥ minDist then p :: keepLoop minDist p.x rest
    else keepLoop minDist lastKept rest

/-- `filterByMinDistance(input, minDist)`, with the sort routine as a parameter. -/
def filterByMinDistance (sortPts : List Point → List Point) (input : PointSet)
    (minDist : ℚ) : Except RscError PointSet :=
  if minDist < 0 then
    .error (.invalidArgument "minDist must be non-negative")
  else if input.pts.isEmpty then
    .ok ⟨[]⟩
  else
    match sortPts input.pts with
    | [] => .ok ⟨[]⟩
    | v0 :: rest => .ok ⟨v0 :: keepLoop minDist v0.x rest⟩

/-- The list of points returned by the filter for a valid distance. -/
def filteredPts (sortPts : List Point → List Point) (S : PointSet) (d : ℚ) : List Point :=
  match sortPts S.pts with
  | [] => []
  | v0 :: rest => v0 :: keepLoop d v0.x rest

/-! ## `hasRegularSpacing` -/

/-- The inner `while (true)` walk of `hasRegularSpacing` from one start: `fuel`
bounds the number of iterations, `none` means the bound was reached before the
loop left through `break`; otherwise the final `count`. -/
def walk (xs : List ℚ) (searchFrom : Nat) (spacing eps : ℚ) : Nat → ℚ → Nat → Option Nat
  | 0, _, _ => none
  | fuel + 1, nextVal, count =>
    if !existsNear xs searchFrom nextVal eps then some count
    else walk xs searchFrom spacing eps fuel (nextVal + spacing) (count + 1)

/-- The outer `for` loop of `hasRegularSpacing` over the start indices still to try. -/
def scanStarts (fuel : Nat) (xs : List ℚ) (spacing : ℚ) (minCount : Nat) (eps : ℚ) :
    List Nat → Option Bool
  | [] => some false
  | i :: more =>
    match xs[i]? with
    | none => some false
    | some xi =>
      match walk xs (i + 1) spacing eps fuel (xi + spacing) 1 with
      | none => none
      | some count =>
        if count ≥ minCount then some true
        else scanStarts fuel xs spacing minCount eps more

/-- `hasRegularSpacing(input, spacing, minCount, eps)`; `fuel` bounds the iterations
of each inner walk and `none` means that bound was reached. -/
def hasRegularSpacing (fuel : Nat) (input : PointSet) (spacing : ℚ) (minCount : Nat)
    (eps : ℚ) : Option Bool :=
  if spacing ≤ 0 ∨ minCount < 3 ∨ input.pts.length < minCount then some false
  else
    let xs := dedupClose (input.pts.map (·.x)) eps
    if xs.length < minCount then some false
    else scanStarts fuel xs spacing minCount eps (List.range xs.length)

/-! ## Double arithmetic

The source computes with `double`. A rounding function `fl : ℚ → ℚ` stands for the
rounding of the exact result of one operation; the routines below that take `fl`
as a parameter round where the source rounds. `roundDouble` is the rounding of
IEEE 754 binary64 (round to nearest, ties to even, gradual underflow) for results in
the finite range; exact arithmetic is `fl = id`. -/

/-- Round to the nearest integer, a tie to the even one. -/
def roundHalfEven (r : ℚ) : ℤ :=
  if r - ⌊r⌋ < 1 / 2 then ⌊r⌋
  else if 1 / 2 < r - ⌊r⌋ then ⌊r⌋ + 1
  else if ⌊r⌋ % 2 = 0 then ⌊r⌋ else ⌊r⌋ + 1

/-- The exponent of the binade of a magnitude: `e` with `2 ^ e ≤ a < 2 ^ (e + 1)`, and
-1022 for magnitudes below the normal range. -/
def binadeExp (a : ℚ) : ℤ := max (Int.log 2 a) (-1022)

/-- The spacing of the doubles in the binade of a magnitude (53 significant bits). -/
def ulp (a : ℚ) : ℚ := (2 : ℚ) ^ (binadeExp a - 52)

/-- Rounding of a magnitude to a multiple of the spacing of its binade. -/
def roundMag (a : ℚ) : ℚ := roundHalfEven (a / ulp a) * ulp a

/-- Rounding to `double`: the magnitude is rounded, the sign is kept. -/
def roundDouble (x : ℚ) : ℚ := if 0 ≤ x then roundMag x else -roundMag (-x)

/-- What the proofs use of a rounding: it is monotone and leaves zero unchanged. -/
structure IsRounding (fl : ℚ → ℚ) : Prop where
  mono : ∀ x y, x ≤ y → fl x ≤ fl y
  zero : fl 0 = 0

/-! ## The routines of `rsc.cpp` with rounded operations -/

/-- `existsNear(xs, startIdx, target, eps)` in double arithmetic: `target - eps` and
`*it - target` are rounded. -/
def existsNearFl (fl : ℚ → ℚ) (xs : List ℚ) (startIdx : Nat) (target eps : ℚ) : Bool :=
  match lowerBound (xs.drop startIdx) (fl (target - eps)) with
  | none => false
  | some y => decide (|fl (y - target)| ≤ eps)

/-- The scan of `dedupClose` in double arithmetic: `xs[i] - out.back()` is rounded. -/
def dedupLoopFl (fl : ℚ → ℚ) (eps : ℚ) : ℚ → List ℚ → List ℚ
  | _, [] => []
  | back, y :: rest =>
    if |fl (y - back)| > eps then y :: dedupLoopFl fl eps y rest
    else dedupLoopFl fl eps back rest

/-- `dedupClose(xs, eps)` in double arithmetic. -/
def dedupCloseFl (fl : ℚ → ℚ) (xs : List ℚ) (eps : ℚ) : List ℚ :=
  if xs.isEmpty then xs
  else
    match sortAsc xs with
    | [] => []
    | x0 :: rest => x0 :: dedupLoopFl fl eps x0 rest

/-- The scan of `filterByMinDistance` in double arithmetic: `v[i].x - lastKept` is
rounded. -/
def keepLoopFl (fl : ℚ → ℚ) (minDist : ℚ) : ℚ → List Point → List Point
  | _, [] => []
  | lastKept, p :: rest =>
    if |fl (p.x - lastKept)| ≥ minDist then p :: keepLoopFl fl minDist p.x rest
    else keepLoopFl fl minDist lastKept rest

/-- `filterByMinDistance(input, minDist)` in double arithmetic, with the sort routine
as a parameter. -/
def filterByMinDistanceFl (fl : ℚ → ℚ) (sortPts : List Point → List Point)
    (input : PointSet) (minDist : ℚ) : Except RscError PointSet :=
  if minDist < 0 then
    .error (.invalidArgument "minDist must be non-negative")
  else if input.pts.isEmpty then
    .ok ⟨[]⟩
  else
    match sortPts input.pts with
    | [] => .ok ⟨[]⟩
    | v0 :: rest => .ok ⟨v0 :: keepLoopFl fl minDist v0.x rest⟩

/-- The list of points returned by the filter in double arithmetic for a valid
distance. -/
def filteredPtsFl (fl : ℚ → ℚ) (sortPts : List Point → List Point) (S : PointSet) (d : ℚ) :
    List Point :=
  match sortPts S.pts with
  | [] => []
  | v0 :: rest => v0 :: keepLoopFl fl d v0.x rest

/-- The inner walk of `hasRegularSpacing` in double arithmetic: `nextVal += spacing` is
rounded. -/
def walkFl (fl : ℚ → ℚ) (xs : List ℚ) (searchFrom : Nat) (spacing eps : ℚ) :
    Nat → ℚ → Nat → Option Nat
  | 0, _, _ => none
  | fuel + 1, nextVal, count =>
    if !existsNearFl fl xs searchFrom nextVal eps then some count
    else walkFl fl xs searchFrom spacing eps fuel (fl (nextVal + spacing)) (count + 1)

/-- The outer loop of `hasRegularSpacing` in double arithmetic: `xs[i] + spacing` is
rounded. -/
def scanStartsFl (fl : ℚ → ℚ) (fuel : Nat) (xs : List ℚ) (spacing : ℚ) (minCount : Nat)
    (eps : ℚ) : List Nat → Option Bool
  | [] => some false
  | i :: more =>
    match xs[i]? with
    | none => some false
    | some xi =>
      match walkFl fl xs (i + 1) spacing eps fuel (fl (xi + spacing)) 1 with
      | none => none
      | some count =>
        if count ≥ minCount then some true
        else scanStartsFl fl fuel xs spacing minCount eps more

/-- `hasRegularSpacing(input, spacing, minCount, eps)` in double arithmetic. -/
def hasRegularSpacingFl (fl : ℚ → ℚ) (fuel : Nat) (input : PointSet) (spacing : ℚ)
    (minCount : Nat) (eps : ℚ) : Option Bool :=
  if spacing ≤ 0 ∨ minCount < 3 ∨ input.pts.length < minCount then some false
  else
    let xs := dedupCloseFl fl (input.pts.map (·.x)) eps
    if xs.length < minCount then some false
    else scanStartsFl fl fuel xs spacing minCount eps (List.range xs.length)

/-! ## `std::sort` of libstdc++

The source is built with g++ (`#include <bits/stdc++.h>`), whose `std::sort` is the
introsort of `bits/stl_algo.h`: `__introsort_loop` partitions ranges of more than 16
elements around the median of three, `__final_insertion_sort` finishes. The heap sort
that takes over when the depth limit is exhausted is a parameter. -/

/-- `std::iter_swap` on two positions of the range. -/
def swapAt {α : Type} (l : List α) (i j : Nat) : List α :=
  match l[i]?, l[j]? with
  | some a, some b => (l.set i b).set j a
  | _, _ => l

/-- `std::__move_median_to_first(result, a, b, c, comp)`. -/
def moveMedianToFirst {α : Type} (comp : α → α → Bool) (l : List α) (result a b c : Nat) :
    List α :=
  match l[a]?, l[b]?, l[c]? with
  | some va, some vb, some vc =>
    if comp va vb then
      if comp vb vc then swapAt l result b
      else if comp va vc then swapAt l result c
      else swapAt l result a
    else if comp va vc then swapAt l result a
    else if comp vb vc then swapAt l result c
    else swapAt l result b
  | _, _, _ => l

/-- The loop `while (comp(first, pivot)) ++first;` of `std::__unguarded_partition`. -/
def scanUp {α : Type} (comp : α → α → Bool) (l : List α) (pivot : α) : Nat → Nat → Nat
  | 0, first => first
  | fuel + 1, first =>
    match l[first]? with
    | some v => if comp v pivot then scanUp comp l pivot fuel (first + 1) else first
    | none => first

/-- The loop `while (comp(pivot, last)) --last;` of `std::__unguarded_partition`. -/
def scanDown {α : Type} (comp : α → α → Bool) (l : List α) (pivot : α) : Nat → Nat → Nat
  | 0, last => last
  | fuel + 1, last =>
    match l[last]? with
    | some v => if comp pivot v then scanDown comp l pivot fuel (last - 1) else last
    | none => last

/-- `std::__unguarded_partition(first, last, pivot, comp)`: the range after the swaps
and the cut position. -/
def unguardedPartition {α : Type} (comp : α → α → Bool) (pivot : α) :
    Nat → List α → Nat → Nat → List α × Nat
  | 0, l, first, _ => (l, first)
  | fuel + 1, l, first, last =>
    let first1 := scanUp comp l pivot l.length first
    let last1 := scanDown comp l pivot l.length (last - 1)
    if first1 < last1 then
      unguardedPartition comp pivot fuel (swapAt l first1 last1) (first1 + 1) last1
    else (l, first1)

/-- `std::__unguarded_partition_pivot(first, last, comp)`. -/
def unguardedPartitionPivot {α : Type} (comp : α → α → Bool) (l : List α) : List α × Nat :=
  let l1 := moveMedianToFirst comp l 0 1 (l.length / 2) (l.length - 1)
  match l1 with
  | [] => (l1, 0)
  | pivot :: _ => unguardedPartition comp pivot l1.length l1 1 l1.length

/-- `std::__introsort_loop(first, last, depth_limit, comp)` on the range `l`. -/
def introsortLoop {α : Type} (comp : α → α → Bool) (heapSort : List α → List α) :
    Nat → List α → List α
  | 0, l => if l.length > 16 then heapSort l else l
  | depth + 1, l =>
    if l.length > 16 then
      let cut := unguardedPartitionPivot comp l
      introsortLoop comp heapSort depth (cut.1.take cut.2) ++
        introsortLoop comp heapSort depth (cut.1.drop cut.2)
    else l

/-- One step of the insertion sorts of libstdc++: `val` moves left past the elements
it is less than. -/
def insertLast {α : Type} (comp : α → α → Bool) (sorted : List α) (val : α) : List α :=
  let moved := (sorted.reverse.takeWhile (fun e => comp val e)).reverse
  sorted.take (sorted.length - moved.length) ++ val :: moved

/-- `std::__final_insertion_sort(first, last, comp)`. -/
def finalInsertionSort {α : Type} (comp : α → α → Bool) (l : List α) : List α :=
  l.foldl (insertLast comp) []

/-- `std::sort(first, last, comp)` of libstdc++. -/
def stdSort {α : Type} (comp : α → α → Bool) (heapSort : List α → List α) (l : List α) :
    List α :=
  if l.isEmpty then l
  else finalInsertionSort comp (introsortLoop comp heapSort (Nat.log2 l.length * 2) l)

/-- `std::sort(v.begin(), v.end(), [](a, b){ return a.x < b.x; })` of libstdc++ on
points. -/
def libstdcxxSortByX (heapSort : List Point → List Point) (l : List Point) : List Point :=
  stdSort (fun a b => decide (a.x < b.x)) heapSort l

/-! ## The walk as spec §4.4 words it -/

/-- The walk of the detector as the specification describes it, for comparison with
`walk`: each search is restricted to the suffix strictly after the previously matched
position. `suffix` is that suffix; the first element that is not less than
`nextVal - eps` is looked up in it, and on a hit the search continues behind it. -/
def walkAdvancing (spacing eps : ℚ) : Nat → List ℚ → ℚ → Nat → Option Nat
  | 0, _, _, _ => none
  | fuel + 1, suffix, nextVal, count =>
    match suffix.dropWhile (fun y => decide (y < nextVal - eps)) with
    | [] => some count
    | y :: after =>
      if |y - nextVal| ≤ eps then
        walkAdvancing spacing eps fuel after (nextVal + spacing) (count + 1)
      else some count

/-- The outer loop of the detector over the walk of the specification. -/
def scanStartsAdvancing (fuel : Nat) (xs : List ℚ) (spacing : ℚ) (minCount : Nat) (eps : ℚ) :
    List Nat → Option Bool
  | [] => some false
  | i :: more =>
    match xs[i]? with
    | none => some false
    | some xi =>
      match walkAdvancing spacing eps fuel (xs.drop (i + 1)) (xi + spacing) 1 with
      | none => none
      | some count =>
        if count ≥ minCount then some true
        else scanStartsAdvancing fuel xs spacing minCount eps more

/-- The detector with the walk of the specification: the same guards and the same
deduplication as `hasRegularSpacing`. -/
def hasRegularSpacingAdvancing (fuel : Nat) (input : PointSet) (spacing : ℚ)
    (minCount : Nat) (eps : ℚ) : Option Bool :=
  if spacing ≤ 0 ∨ minCount < 3 ∨ input.pts.length < minCount then some false
  else
    let xs := dedupClose (input.pts.map (·.x)) eps
    if xs.length < minCount then some false
    else scanStartsAdvancing fuel xs spacing minCount eps (List.range xs.length)

/-! ## CSV persistence (`PointSet::saveCSV`, `PointSet::loadCSV`) -/

/-- `s.find(d)` together with `s.substr(0, pos)` and `s.substr(pos + 1)`: the text before
and the text after the first `d`, or `none` when `find` returns `npos`. -/
def splitAtFirst (d : Char) : List Char → Option (List Char × List Char)
  | [] => none
  | c :: cs =>
    if c = d then some ([], cs)
    else
      match splitAtFirst d cs with
      | none => none
      | some (before, after) => some (c :: before, after)

/-- The tokens read by `while (getline(stream, token, delim))` from the remaining stream
content; `cur` holds, reversed, the characters already extracted for the current
token. At the end of the stream a token is delivered only if characters were
extracted for it. -/
def getlines (delim : Char) : List Char → List Char → List (List Char)
  | cur, [] => if cur.isEmpty then [] else [cur.reverse]
  | cur, c :: cs =>
    if c = delim then cur.reverse :: getlines delim [] cs
    else getlines delim (c :: cur) cs

/-- `p.attrs[k] = v` on the attribute map: the value of an existing key is replaced, a
new key is added. -/
def setAttr (attrs : List (String × String)) (k v : String) : List (String × String) :=
  if attrs.any (fun kv => decide (kv.1 = k)) then
    attrs.map (fun kv => if kv.1 = k then (k, v) else kv)
  else attrs ++ [(k, v)]

/-- The attribute loop of `loadCSV`: a token with `=` sets an attribute, a token without
is dropped. -/
def parseAttrs (tokens : List (List Char)) : List (String × String) :=
  tokens.foldl
    (fun attrs token =>
      match splitAtFirst '=' token with
      | none => attrs
      | some (k, v) => setAttr attrs (String.mk k) (String.mk v))
    []

/-- The text `saveCSV` writes for the attributes of a point: `,key=value` for each. -/
def attrsText (attrs : List (String × String)) : List Char :=
  attrs.flatMap (fun kv => ',' :: (kv.1.data ++ '=' :: kv.2.data))

/-- The text of one attribute as `saveCSV` writes it after the comma. -/
def attrToken (kv : String × String) : List Char := kv.1.data ++ '=' :: kv.2.data

/-- The characters `saveCSV` writes for one point; `render` is the output of
`f << std::setprecision(17) << p.x`. -/
def saveLine (render : ℚ → List Char) (p : Point) : List Char :=
  render p.x ++ attrsText p.attrs ++ ['\n']

/-- `saveCSV`: the content written to the file, or the error when the file cannot be
opened for writing. -/
def saveCSV (render : ℚ → List Char) (canOpen : Bool) (S : PointSet) :
    Except RscError (List Char) :=
  if !canOpen then .error (.runtimeError "Cannot open file for writing")
  else .ok (S.pts.flatMap (saveLine render))

/-- The body of the line loop of `loadCSV` for one non-empty line; `parse` is `stod`,
`none` standing for its exception. -/
def loadLine (parse : List Char → Option ℚ) (line : List Char) : Except RscError Point :=
  match splitAtFirst ',' line with
  | none =>
    match parse line with
    | none => .error (.invalidArgument "stod")
    | some x => .ok ⟨x, []⟩
  | some (first, rest) =>
    match parse first with
    | none => .error (.invalidArgument "stod")
    | some x => .ok ⟨x, parseAttrs (getlines ',' [] rest)⟩

/-- The line loop of `loadCSV`: empty lines are skipped, the first error ends it. -/
def loadLines (parse : List Char → Option ℚ) : List (List Char) → Except RscError (List Point)
  | [] => .ok []
  | line :: more =>
    if line.isEmpty then loadLines parse more
    else
      match loadLine parse line with
      | .error e => .error e
      | .ok p =>
        match loadLines parse more with
        | .error e => .error e
        | .ok ps => .ok (p :: ps)

/-- `loadCSV`: `file` is the content of the file, `none` when it cannot be opened for
reading. -/
def loadCSV (parse : List Char → Option ℚ) (file : Option (List Char)) :
    Except RscError PointSet :=
  match file with
  | none => .error (.runtimeError "Cannot open file for reading")
  | some content =>
    match loadLines parse (getlines '\n' [] content) with
    | .error e => .error e
    | .ok ps => .ok ⟨ps⟩

/-- A rendering used in examples: every coordinate is written as `1`. -/
def renderOne (_ : ℚ) : List Char := ['1']

/-- A parser used in examples: every text is read as the coordinate 1. -/
def parseOne (_ : List Char) : Option ℚ := some 1

/-- A point whose attribute key contains `=`. -/
def keyWithEquals : PointSet := ⟨[⟨1, [("a=b", "c")]⟩]⟩

/-! ## `do_task` (`DoTask.c`) -/

/-- A pointer value; 0 is `NULL`. -/
abbrev Ptr := Nat

/-- The routines `do_task` calls, which the source does not define: `acquire_a` gives its
return code and the value it leaves in `this_a`; `acquire_b` gives the pointer it
returns for `this_a`; `acquire_c` gives the values it leaves in `this_c` and `ecode`
(`NULL` and 0 when it does not write them); `do_subtask` gives its return code. -/
structure TaskEnv where
  acquire_a : Int × Ptr
  acquire_b : Ptr → Ptr
  acquire_c : Ptr → Ptr × Int
  do_subtask : Ptr → Ptr → Ptr → Int

/-- A call of one of the release routines. -/
inductive Release where
  | release_c (p : Ptr)
  | release_b (p : Ptr)
  | release_a (p : Ptr)
deriving DecidableEq

/-- The `cleanup:` block: the release calls made for the three pointers. -/
def cleanup (this_a this_b this_c : Ptr) : List Release :=
  (if this_c ≠ 0 then [Release.release_c this_c] else []) ++
  (if this_b ≠ 0 then [Release.release_b this_b] else []) ++
  (if this_a ≠ 0 then [Release.release_a this_a] else [])

/-- `do_task`: the return value and the release calls made, in order. -/
def do_task (env : TaskEnv) : Int × List Release :=
  let this_a := env.acquire_a.2
  if env.acquire_a.1 ≠ 0 ∨ this_a = 0 then (-1, cleanup this_a 0 0)
  else
    let this_b := env.acquire_b this_a
    if this_b = 0 then (-1, cleanup this_a this_b 0)
    else
      let this_c := (env.acquire_c this_a).1
      let ecode := (env.acquire_c this_a).2
      if ecode ≠ 0 ∨ this_c = 0 then (-1, cleanup this_a this_b this_c)
      else if env.do_subtask this_a this_b this_c ≠ 0 then (-1, cleanup this_a this_b this_c)
      else (0, cleanup this_a this_b this_c)

/-- The value of `this_b` when `do_task` reaches `cleanup:`. -/
def finalB (env : TaskEnv) : Ptr :=
  if env.acquire_a.1 ≠ 0 ∨ env.acquire_a.2 = 0 then 0 else env.acquire_b env.acquire_a.2

/-- The value of `this_c` when `do_task` reaches `cleanup:`. -/
def finalC (env : TaskEnv) : Ptr :=
  if env.acquire_a.1 ≠ 0 ∨ env.acquire_a.2 = 0 then 0
  else if env.acquire_b env.acquire_a.2 = 0 then 0
  else (env.acquire_c env.acquire_a.2).1

/-- All three acquisitions and the subtask succeed. -/
def allSucceed (env : TaskEnv) : Prop :=
  env.acquire_a.1 = 0 ∧ env.acquire_a.2 ≠ 0 ∧
  env.acquire_b env.acquire_a.2 ≠ 0 ∧
  (env.acquire_c env.acquire_a.2).2 = 0 ∧ (env.acquire_c env.acquire_a.2).1 ≠ 0 ∧
  env.do_subtask env.acquire_a.2 (env.acquire_b env.acquire_a.2)
    (env.acquire_c env.acquire_a.2).1 = 0

/-! ## Example data of `main` -/

/-- The point set `ps` of `main`. -/
def demoPoints : PointSet :=
  ⟨[⟨5 / 100, [("label", "a")]⟩, ⟨1, []⟩, ⟨201 / 100, []⟩, ⟨3, []⟩, ⟨302 / 100, []⟩,
    ⟨5, []⟩, ⟨501 / 100, []⟩, ⟨7, []⟩, ⟨9, []⟩]⟩

/-- The filtered set of Scenario A: `filterByMinDistance(ps, 0.05)`. -/
def demoFiltered : PointSet :=
  ⟨[⟨5 / 100, [("label", "a")]⟩, ⟨1, []⟩, ⟨201 / 100, []⟩, ⟨3, []⟩,
    ⟨5, []⟩, ⟨7, []⟩, ⟨9, []⟩]⟩

/-- Three points at 0, 3 and 20: with spacing 2 and tolerance 1 the point at 3 is within
tolerance of both 0 + 2 and 0 + 4. -/
def overlapPoints : PointSet := ⟨[⟨0, []⟩, ⟨3, []⟩, ⟨20, []⟩]⟩

/-- Seventeen points with the coordinate 1, told apart by the attribute `id`. -/
def tiedPoints : PointSet :=
  ⟨[⟨1, [("id", "0")]⟩, ⟨1, [("id", "1")]⟩, ⟨1, [("id", "2")]⟩, ⟨1, [("id", "3")]⟩,
    ⟨1, [("id", "4")]⟩, ⟨1, [("id", "5")]⟩, ⟨1, [("id", "6")]⟩, ⟨1, [("id", "7")]⟩,
    ⟨1, [("id", "8")]⟩, ⟨1, [("id", "9")]⟩, ⟨1, [("id", "10")]⟩, ⟨1, [("id", "11")]⟩,
    ⟨1, [("id", "12")]⟩, ⟨1, [("id", "13")]⟩, ⟨1, [("id", "14")]⟩, ⟨1, [("id", "15")]⟩,
    ⟨1, [("id", "16")]⟩]⟩

/-- The points of `tiedPoints` in the order `std::sort` of libstdc++ leaves them in. -/
def tiedPointsSorted : PointSet :=
  ⟨[⟨1, [("id", "8")]⟩, ⟨1, [("id", "16")]⟩, ⟨1, [("id", "15")]⟩, ⟨1, [("id", "14")]⟩,
    ⟨1, [("id", "13")]⟩, ⟨1, [("id", "12")]⟩, ⟨1, [("id", "11")]⟩, ⟨1, [("id", "10")]⟩,
    ⟨1, [("id", "9")]⟩, ⟨1, [("id", "0")]⟩, ⟨1, [("id", "7")]⟩, ⟨1, [("id", "6")]⟩,
    ⟨1, [("id", "5")]⟩, ⟨1, [("id", "4")]⟩, ⟨1, [("id", "3")]⟩, ⟨1, [("id", "2")]⟩,
    ⟨1, [("id", "1")]⟩]⟩

/-- The points of `tiedPointsSorted` in the order `std::sort` of libstdc++ leaves them
in. -/
def tiedPointsSortedTwice : PointSet :=
  ⟨[⟨1, [("id", "9")]⟩, ⟨1, [("id", "1")]⟩, ⟨1, [("id", "2")]⟩, ⟨1, [("id", "3")]⟩,
    ⟨1, [("id", "4")]⟩, ⟨1, [("id", "5")]⟩, ⟨1, [("id", "6")]⟩, ⟨1, [("id", "7")]⟩,
    ⟨1, [("id", "0")]⟩, ⟨1, [("id", "8")]⟩, ⟨1, [("id", "10")]⟩, ⟨1, [("id", "11")]⟩,
    ⟨1, [("id", "12")]⟩, ⟨1, [("id", "13")]⟩, ⟨1, [("id", "14")]⟩, ⟨1, [("id", "15")]⟩,
    ⟨1, [("id", "16")]⟩]⟩

/-! ## Facts about the sort routines -/

theorem sortByX_isSort : IsSortByX sortByX where
  perm l := List.perm_insertionSort leX l
  sorted l := by
    have h := List.sorted_insertionSort leX l
    exact List.Pairwise.imp (fun {a b} (hab : leX a b) => not_lt.mpr hab) h

theorem IsSortByX.ascending {sortPts : List Point → List Point} (hs : IsSortByX sortPts)
    (l : List Point) : List.Pairwise (fun a b : Point => a.x ≤ b.x) (sortPts l) :=
  List.Pairwise.imp (fun {_ _} hab => not_lt.mp hab) (hs.sorted l)

theorem IsSortByX.eq_nil_iff {sortPts : List Point → List Point} (hs : IsSortByX sortPts)
    (l : List Point) : sortPts l = [] ↔ l = [] := by
  constructor
  · intro h
    have hp := hs.perm l
    rw [h] at hp
    exact List.Perm.eq_nil hp.symm
  · intro h
    subst h
    exact List.Perm.eq_nil (hs.perm [])

/-! ## Facts about `keepLoop` -/

theorem gap_le_abs {d a b : ℚ} (h : d ≤ b - a) : |b - a| ≥ d :=
  le_trans h (le_abs_self (b - a))

theorem keepLoop_nil (d last : ℚ) : keepLoop d last [] = [] := rfl

theorem keepLoop_cons_keep {d last : ℚ} {p : Point} (rest : List Point)
    (h : d ≤ |p.x - last|) : keepLoop d last (p :: rest) = p :: keepLoop d p.x rest := by
  simp [keepLoop, h]

theorem keepLoop_cons_skip {d last : ℚ} {p : Point} (rest : List Point)
    (h : ¬ d ≤ |p.x - last|) : keepLoop d last (p :: rest) = keepLoop d last rest := by
  simp [keepLoop, h]

theorem keepLoop_sublist (d : ℚ) (l : List Point) :
    ∀ last, List.Sublist (keepLoop d last l) l := by
  induction l with
  | nil => intro last; simp [keepLoop]
  | cons p rest ih =>
    intro last
    by_cases h : d ≤ |p.x - last|
    · rw [keepLoop_cons_keep rest h]
      exact (ih p.x).cons₂ p
    · rw [keepLoop_cons_skip rest h]
      exact (ih last).cons p

/-- Every point kept by the scan is at least `d` beyond the last kept coordinate. -/
theorem keepLoop_gap_from_last {d : ℚ} (hd : 0 ≤ d) (l : List Point) :
    ∀ last, (∀ p ∈ l, last ≤ p.x) → List.Pairwise (fun a b : Point => a.x ≤ b.x) l →
      ∀ q ∈ keepLoop d last l, d ≤ q.x - last := by
  have _ := hd
  induction l with
  | nil => intro last _ _ q hq; simp [keepLoop] at hq
  | cons p rest ih =>
    intro last hlast hsorted q hq
    have hp : last ≤ p.x := hlast p (List.mem_cons_self _ _)
    rw [List.pairwise_cons] at hsorted
    by_cases h : d ≤ |p.x - last|
    · rw [keepLoop_cons_keep rest h, List.mem_cons] at hq
      rw [abs_of_nonneg (sub_nonneg.mpr hp)] at h
      rcases hq with rfl | hq
      · exact h
      · have := ih p.x hsorted.1 hsorted.2 q hq
        linarith
    · rw [keepLoop_cons_skip rest h] at hq
      exact ih last (fun r hr => hlast r (List.mem_cons_of_mem _ hr)) hsorted.2 q hq

/-- Any two points kept by the scan are at least `d` apart, the later one above. -/
theorem keepLoop_pairwise {d : ℚ} (hd : 0 ≤ d) (l : List Point) :
    ∀ last, (∀ p ∈ l, last ≤ p.x) → List.Pairwise (fun a b : Point => a.x ≤ b.x) l →
      List.Pairwise (fun a b : Point => d ≤ b.x - a.x) (keepLoop d last l) := by
  induction l with
  | nil => intro last _ _; simp [keepLoop]
  | cons p rest ih =>
    intro last hlast hsorted
    rw [List.pairwise_cons] at hsorted
    by_cases h : d ≤ |p.x - last|
    · rw [keepLoop_cons_keep rest h, List.pairwise_cons]
      exact ⟨fun q hq => keepLoop_gap_from_last hd rest p.x hsorted.1 hsorted.2 q hq,
        ih p.x hsorted.1 hsorted.2⟩
    · rw [keepLoop_cons_skip rest h]
      exact ih last (fun r hr => hlast r (List.mem_cons_of_mem _ hr)) hsorted.2

/-- Comparison of two scans of the same ascending list with thresholds `d1 ≤ d2`:
the scan with the larger threshold never keeps more points when it starts from a
last kept coordinate that is not smaller, and at most one more in general. -/
theorem keepLoop_length_compare {d1 d2 : ℚ} (h12 : d1 ≤ d2) (l : List Point) :
    List.Pairwise (fun a b : Point => a.x ≤ b.x) l →
      (∀ last1 last2, last1 ≤ last2 → (∀ p ∈ l, last2 ≤ p.x) →
        (keepLoop d2 last2 l).length ≤ (keepLoop d1 last1 l).length) ∧
      (∀ last1 last2, (∀ p ∈ l, last1 ≤ p.x) →
        (keepLoop d2 last2 l).length ≤ (keepLoop d1 last1 l).length + 1) := by
  induction l with
  | nil => intro _; simp [keepLoop]
  | cons y rest ih =>
    intro hsorted
    rw [List.pairwise_cons] at hsorted
    obtain ⟨ihA, ihB⟩ := ih hsorted.2
    constructor
    · intro last1 last2 hle hall
      have hy2 : last2 ≤ y.x := hall y (List.mem_cons_self _ _)
      have hrest : ∀ p ∈ rest, last2 ≤ p.x := fun p hp => hall p (List.mem_cons_of_mem _ hp)
      by_cases h2 : d2 ≤ |y.x - last2|
      · have h1 : d1 ≤ |y.x - last1| := by
          rw [abs_of_nonneg (sub_nonneg.mpr hy2)] at h2
          rw [abs_of_nonneg (sub_nonneg.mpr (le_trans hle hy2))]
          linarith
        rw [keepLoop_cons_keep rest h2, keepLoop_cons_keep rest h1]
        simp only [List.length_cons]
        exact Nat.succ_le_succ (ihA y.x y.x le_rfl hsorted.1)
      · rw [keepLoop_cons_skip rest h2]
        by_cases h1 : d1 ≤ |y.x - last1|
        · rw [keepLoop_cons_keep rest h1]
          simp only [List.length_cons]
          exact ihB y.x last2 hsorted.1
        · rw [keepLoop_cons_skip rest h1]
          exact ihA last1 last2 hle hrest
    · intro last1 last2 hall
      have hy1 : last1 ≤ y.x := hall y (List.mem_cons_self _ _)
      have hrest : ∀ p ∈ rest, last1 ≤ p.x := fun p hp => hall p (List.mem_cons_of_mem _ hp)
      by_cases h2 : d2 ≤ |y.x - last2|
      · rw [keepLoop_cons_keep rest h2]
        by_cases h1 : d1 ≤ |y.x - last1|
        · rw [keepLoop_cons_keep rest h1]
          simp only [List.length_cons]
          exact Nat.le_succ_of_le (Nat.succ_le_succ (ihA y.x y.x le_rfl hsorted.1))
        · rw [keepLoop_cons_skip rest h1]
          simp only [List.length_cons]
          exact Nat.succ_le_succ (ihA last1 y.x hy1 hsorted.1)
      · rw [keepLoop_cons_skip rest h2]
        by_cases h1 : d1 ≤ |y.x - last1|
        · rw [keepLoop_cons_keep rest h1]
          simp only [List.length_cons]
          exact Nat.le_succ_of_le (ihB y.x last2 hsorted.1)
        · rw [keepLoop_cons_skip rest h1]
          exact ihB last1 last2 hrest

/-- With threshold zero the scan keeps every point. -/
theorem keepLoop_zero (l : List Point) : ∀ last, keepLoop 0 last l = l := by
  induction l with
  | nil => intro last; rfl
  | cons p rest ih =>
    intro last
    rw [keepLoop_cons_keep rest (abs_nonneg _), ih p.x]

/-- Scanning the result of a scan again, from the same last kept coordinate and with
the same threshold, keeps everything. -/
theorem keepLoop_idem (d : ℚ) (l : List Point) :
    ∀ last, keepLoop d last (keepLoop d last l) = keepLoop d last l := by
  induction l with
  | nil => intro last; simp [keepLoop]
  | cons p rest ih =>
    intro last
    by_cases h : d ≤ |p.x - last|
    · rw [keepLoop_cons_keep rest h, keepLoop_cons_keep _ h, ih p.x]
    · rw [keepLoop_cons_skip rest h, ih last]

/-- A list that is strictly ascending by coordinate is left unchanged by any sort
routine that meets the contract. -/
theorem IsSortByX.fixes_strict {sortPts : List Point → List Point} (hs : IsSortByX sortPts)
    {l : List Point} (hl : List.Pairwise (fun a b : Point => a.x < b.x) l) :
    sortPts l = l := by
  have hnd : (l.map (·.x)).Nodup := by
    unfold List.Nodup
    rw [List.pairwise_map]
    refine List.Pairwise.imp ?_ hl
    intro a b h
    exact ne_of_lt h
  have hnd2 : ((sortPts l).map (·.x)).Nodup :=
    (List.Perm.nodup_iff ((hs.perm l).map _)).mpr hnd
  unfold List.Nodup at hnd2
  rw [List.pairwise_map] at hnd2
  have hstrict : List.Pairwise (fun a b : Point => a.x < b.x) (sortPts l) := by
    refine List.Pairwise.imp ?_ (List.Pairwise.and (hs.ascending l) hnd2)
    intro a b h
    exact lt_of_le_of_ne h.1 h.2
  exact List.eq_of_perm_of_sorted (hs.perm l) hstrict hl

/-- Unfolding of `filterByMinDistance` for a valid distance: the sorted input is
scanned from its first point. -/
theorem filterByMinDistance_eq {sortPts : List Point → List Point} (hs : IsSortByX sortPts)
    (S : PointSet) {d : ℚ} (hd : 0 ≤ d) :
    filterByMinDistance sortPts S d = .ok ⟨filteredPts sortPts S d⟩ := by
  unfold filterByMinDistance filteredPts
  rw [if_neg (not_lt.mpr hd)]
  by_cases he : S.pts = []
  · rw [(hs.eq_nil_iff S.pts).mpr he]
    simp [he]
  · have hne : S.pts.isEmpty = false := by
      cases hS : S.pts with
      | nil => exact absurd hS he
      | cons a t => rfl
    rw [hne]
    cases sortPts S.pts <;> simp

theorem filteredPts_pairwise {sortPts : List Point → List Point} (hs : IsSortByX sortPts)
    (S : PointSet) {d : ℚ} (hd : 0 ≤ d) :
    List.Pairwise (fun a b : Point => d ≤ b.x - a.x) (filteredPts sortPts S d) := by
  unfold filteredPts
  have hasc := hs.ascending S.pts
  cases hv : sortPts S.pts with
  | nil => simp
  | cons v0 rest =>
    rw [hv, List.pairwise_cons] at hasc
    simp only [List.pairwise_cons]
    exact ⟨fun q hq => keepLoop_gap_from_last hd rest v0.x hasc.1 hasc.2 q hq,
      keepLoop_pairwise hd rest v0.x hasc.1 hasc.2⟩

/-! ## Claims about `filterByMinDistance` -/

theorem filteredPts_sublist (sortPts : List Point → List Point) (S : PointSet) (d : ℚ) :
    List.Sublist (filteredPts sortPts S d) (sortPts S.pts) := by
  unfold filteredPts
  cases sortPts S.pts with
  | nil => simp
  | cons v0 rest => exact (keepLoop_sublist d rest v0.x).cons₂ v0

/-- Filtering a list that is already a filter result and strictly ascending by
coordinate returns it unchanged. -/
theorem filteredPts_fixed {sortPts : List Point → List Point} (hs : IsSortByX sortPts)
    (S : PointSet) (d : ℚ)
    (hstrict : List.Pairwise (fun a b : Point => a.x < b.x) (filteredPts sortPts S d)) :
    filteredPts sortPts ⟨filteredPts sortPts S d⟩ d = filteredPts sortPts S d := by
  have hfix := hs.fixes_strict hstrict
  unfold filteredPts at hfix ⊢
  simp only
  rw [hfix]
  cases sortPts S.pts with
  | nil => rfl
  | cons v0 rest => simp only [keepLoop_idem]

/-- C2: for a sort routine meeting the contract of `std::sort` and `0 <= d1 <= d2`, both
calls return a point set and the one for `d2` has at most as many points as the one
for `d1`. -/
theorem filterByMinDistance_size_antitone (sortPts : List Point → List Point)
    (hs : IsSortByX sortPts) (S : PointSet) (d1 d2 : ℚ) (h0 : 0 ≤ d1) (h12 : d1 ≤ d2) :
    ∃ out1 out2, filterByMinDistance sortPts S d1 = .ok out1 ∧
      filterByMinDistance sortPts S d2 = .ok out2 ∧
      out2.pts.length ≤ out1.pts.length := by
  refine ⟨_, _, filterByMinDistance_eq hs S h0, filterByMinDistance_eq hs S (le_trans h0 h12), ?_⟩
  have hasc := hs.ascending S.pts
  show (filteredPts sortPts S d2).length ≤ (filteredPts sortPts S d1).length
  unfold filteredPts
  cases hv : sortPts S.pts with
  | nil => simp
  | cons v0 rest =>
    rw [hv, List.pairwise_cons] at hasc
    simp only [List.length_cons]
    exact Nat.succ_le_succ
      ((keepLoop_length_compare h12 rest hasc.2).1 v0.x v0.x le_rfl hasc.1)

/-- Witness for C2 on the point set of `main` with `d1 = 0.05` and `d2 = 2`. -/
theorem filterByMinDistance_size_antitone_witness :
    IsSortByX sortByX ∧ (0 : ℚ) ≤ 5 / 100 ∧ (5 / 100 : ℚ) ≤ 2 ∧
    ∃ out1 out2, filterByMinDistance sortByX demoPoints (5 / 100) = .ok out1 ∧
      filterByMinDistance sortByX demoPoints 2 = .ok out2 ∧
      out2.pts.length ≤ out1.pts.length :=
  ⟨sortByX_isSort, by norm_num, by norm_num,
    filterByMinDistance_size_antitone sortByX sortByX_isSort demoPoints (5 / 100) 2
      (show (0 : ℚ) ≤ 5 / 100 by norm_num) (show (5 / 100 : ℚ) ≤ 2 by norm_num)⟩

/-- C3, amended: for a sort routine meeting the contract of `std::sort`, filtering the
result of the filter again with the same `d` returns it unchanged (same points, same
order, same attributes) whenever `d > 0`; for `d = 0` it does so when no two input
points share a coordinate, and more generally when sorting the sorted input again
leaves it unchanged. -/
theorem filterByMinDistance_idempotent (sortPts : List Point → List Point)
    (hs : IsSortByX sortPts) (S : PointSet) (d : ℚ) (hd : 0 ≤ d)
    (hties : 0 < d ∨ (S.pts.map (·.x)).Nodup ∨ sortPts (sortPts S.pts) = sortPts S.pts) :
    ∃ out, filterByMinDistance sortPts S d = .ok out ∧
      filterByMinDistance sortPts out d = .ok out := by
  have hfixed : filteredPts sortPts ⟨filteredPts sortPts S d⟩ d = filteredPts sortPts S d := by
    rcases hties with hpos | hnd | hidem
    · refine filteredPts_fixed hs S d (List.Pairwise.imp ?_ (filteredPts_pairwise hs S hd))
      intro a b h
      linarith
    · have hnd2 : ((sortPts S.pts).map (·.x)).Nodup :=
        (List.Perm.nodup_iff ((hs.perm S.pts).map _)).mpr hnd
      unfold List.Nodup at hnd2
      rw [List.pairwise_map] at hnd2
      refine filteredPts_fixed hs S d
        (List.Pairwise.sublist (filteredPts_sublist sortPts S d) ?_)
      refine List.Pairwise.imp ?_ (List.Pairwise.and (hs.ascending S.pts) hnd2)
      intro a b h
      exact lt_of_le_of_ne h.1 h.2
    · rcases lt_or_eq_of_le hd with hpos | hzero
      · refine filteredPts_fixed hs S d (List.Pairwise.imp ?_ (filteredPts_pairwise hs S hd))
        intro a b h
        linarith
      · subst hzero
        have hall : ∀ T : PointSet, filteredPts sortPts T 0 = sortPts T.pts := by
          intro T
          unfold filteredPts
          cases sortPts T.pts with
          | nil => rfl
          | cons v0 rest => simp only [keepLoop_zero]
        rw [hall, hall]
        exact hidem
  refine ⟨⟨filteredPts sortPts S d⟩, filterByMinDistance_eq hs S hd, ?_⟩
  rw [filterByMinDistance_eq hs _ hd]
  exact congrArg (fun l => Except.ok (PointSet.mk l)) hfixed

/-- Witness for the amended C3 on the point set of `main` with `d = 0.05`. -/
theorem filterByMinDistance_idempotent_witness :
    IsSortByX sortByX ∧ (0 : ℚ) < 5 / 100 ∧
    ∃ out, filterByMinDistance sortByX demoPoints (5 / 100) = .ok out ∧
      filterByMinDistance sortByX out (5 / 100) = .ok out :=
  ⟨sortByX_isSort, by norm_num,
    filterByMinDistance_idempotent sortByX sortByX_isSort demoPoints (5 / 100)
      (show (0 : ℚ) ≤ 5 / 100 by norm_num) (Or.inl (show (0 : ℚ) < 5 / 100 by norm_num))⟩

/-- C4: the filter throws the invalid-argument error exactly when `minDist < 0`, for
every input (the empty one included); for `minDist >= 0` it returns a point set. -/
theorem filterByMinDistance_error_iff (sortPts : List Point → List Point) (S : PointSet)
    (minDist : ℚ) :
    (minDist < 0 →
      filterByMinDistance sortPts S minDist =
        .error (.invalidArgument "minDist must be non-negative")) ∧
    (0 ≤ minDist → ∃ out, filterByMinDistance sortPts S minDist = .ok out) ∧
    ((∃ e, filterByMinDistance sortPts S minDist = .error e) ↔ minDist < 0) := by
  have hneg : minDist < 0 → filterByMinDistance sortPts S minDist =
      .error (.invalidArgument "minDist must be non-negative") := by
    intro h
    simp [filterByMinDistance, h]
  have hpos : 0 ≤ minDist → ∃ out, filterByMinDistance sortPts S minDist = .ok out := by
    intro h
    unfold filterByMinDistance
    rw [if_neg (not_lt.mpr h)]
    split
    · exact ⟨_, rfl⟩
    · split <;> exact ⟨_, rfl⟩
  refine ⟨hneg, hpos, ?_, fun h => ⟨_, hneg h⟩⟩
  rintro ⟨e, he⟩
  by_contra hge
  obtain ⟨out, hout⟩ := hpos (not_lt.mp hge)
  rw [hout] at he
  exact Except.noConfusion he

/-! ## Facts about `existsNear` -/

/-- A hit of `existsNear` always comes from an element within tolerance, whatever the
order of the list. -/
theorem existsNear_sound {xs : List ℚ} {s : Nat} {t eps : ℚ}
    (h : existsNear xs s t eps = true) : ∃ y ∈ xs.drop s, |y - t| ≤ eps := by
  unfold existsNear lowerBound at h
  cases hf : (xs.drop s).find? (fun y => decide (¬ y < t - eps)) with
  | none => rw [hf] at h; exact absurd h (by simp)
  | some z =>
    rw [hf] at h
    exact ⟨z, List.mem_of_find?_eq_some hf, of_decide_eq_true h⟩

/-! ## Facts about `dedupLoop` -/

theorem sortAsc_perm (xs : List ℚ) : List.Perm (sortAsc xs) xs :=
  List.perm_insertionSort (· ≤ ·) xs

theorem sortAsc_sorted (xs : List ℚ) : List.Pairwise (· ≤ ·) (sortAsc xs) :=
  List.sorted_insertionSort (· ≤ ·) xs

theorem mem_sortAsc {xs : List ℚ} {v : ℚ} : v ∈ sortAsc xs ↔ v ∈ xs :=
  (sortAsc_perm xs).mem_iff

theorem dedupLoop_cons_keep {eps back y : ℚ} (rest : List ℚ) (h : eps < |y - back|) :
    dedupLoop eps back (y :: rest) = y :: dedupLoop eps y rest := by
  simp [dedupLoop, h]

theorem dedupLoop_cons_skip {eps back y : ℚ} (rest : List ℚ) (h : ¬ eps < |y - back|) :
    dedupLoop eps back (y :: rest) = dedupLoop eps back rest := by
  simp [dedupLoop, h]

theorem dedupLoop_sublist (eps : ℚ) (l : List ℚ) :
    ∀ back, List.Sublist (dedupLoop eps back l) l := by
  induction l with
  | nil => intro back; simp [dedupLoop]
  | cons y rest ih =>
    intro back
    by_cases h : eps < |y - back|
    · rw [dedupLoop_cons_keep rest h]
      exact (ih y).cons₂ y
    · rw [dedupLoop_cons_skip rest h]
      exact (ih back).cons y

/-- Every value kept by the scan is more than `eps` above the last kept value. -/
theorem dedupLoop_gap_from_back {eps : ℚ} (heps : 0 ≤ eps) (l : List ℚ) :
    ∀ back, (∀ y ∈ l, back ≤ y) → List.Pairwise (· ≤ ·) l →
      ∀ q ∈ dedupLoop eps back l, eps < q - back := by
  induction l with
  | nil => intro back _ _ q hq; simp [dedupLoop] at hq
  | cons y rest ih =>
    intro back hback hsorted q hq
    have hy : back ≤ y := hback y (List.mem_cons_self _ _)
    rw [List.pairwise_cons] at hsorted
    by_cases h : eps < |y - back|
    · rw [dedupLoop_cons_keep rest h, List.mem_cons] at hq
      rw [abs_of_nonneg (sub_nonneg.mpr hy)] at h
      rcases hq with rfl | hq
      · exact h
      · have := ih y hsorted.1 hsorted.2 q hq
        linarith
    · rw [dedupLoop_cons_skip rest h] at hq
      exact ih back (fun r hr => hback r (List.mem_cons_of_mem _ hr)) hsorted.2 q hq

/-- Any two values kept by the scan are more than `eps` apart, the later one above. -/
theorem dedupLoop_pairwise {eps : ℚ} (heps : 0 ≤ eps) (l : List ℚ) :
    ∀ back, (∀ y ∈ l, back ≤ y) → List.Pairwise (· ≤ ·) l →
      List.Pairwise (fun a b : ℚ => eps < b - a) (dedupLoop eps back l) := by
  induction l with
  | nil => intro back _ _; simp [dedupLoop]
  | cons y rest ih =>
    intro back hback hsorted
    rw [List.pairwise_cons] at hsorted
    by_cases h : eps < |y - back|
    · rw [dedupLoop_cons_keep rest h, List.pairwise_cons]
      exact ⟨fun q hq => dedupLoop_gap_from_back heps rest y hsorted.1 hsorted.2 q hq,
        ih y hsorted.1 hsorted.2⟩
    · rw [dedupLoop_cons_skip rest h]
      exact ih back (fun r hr => hback r (List.mem_cons_of_mem _ hr)) hsorted.2

/-- Unfolding of `dedupClose`: the sorted input is scanned from its first value. -/
theorem dedupClose_eq (xs : List ℚ) (eps : ℚ) :
    dedupClose xs eps =
      match sortAsc xs with
      | [] => []
      | x0 :: rest => x0 :: dedupLoop eps x0 rest := by
  unfold dedupClose
  cases xs with
  | nil => simp [sortAsc]
  | cons a t => simp

theorem dedupClose_nil (eps : ℚ) : dedupClose [] eps = [] := rfl

theorem dedupClose_sublist (xs : List ℚ) (eps : ℚ) :
    List.Sublist (dedupClose xs eps) (sortAsc xs) := by
  rw [dedupClose_eq]
  cases sortAsc xs with
  | nil => simp
  | cons x0 rest => exact (dedupLoop_sublist eps rest x0).cons₂ x0

theorem dedupClose_mem_input {xs : List ℚ} {eps r : ℚ} (hr : r ∈ dedupClose xs eps) :
    r ∈ xs :=
  mem_sortAsc.mp ((dedupClose_sublist xs eps).subset hr)

/-- Any two values returned by `dedupClose` are more than `eps` apart, the later one
above. -/
theorem dedupClose_pairwise (xs : List ℚ) {eps : ℚ} (heps : 0 ≤ eps) :
    List.Pairwise (fun a b : ℚ => eps < b - a) (dedupClose xs eps) := by
  rw [dedupClose_eq]
  have hsorted := sortAsc_sorted xs
  cases hv : sortAsc xs with
  | nil => simp
  | cons x0 rest =>
    rw [hv, List.pairwise_cons] at hsorted
    simp only [List.pairwise_cons]
    exact ⟨fun q hq => dedupLoop_gap_from_back heps rest x0 hsorted.1 hsorted.2 q hq,
      dedupLoop_pairwise heps rest x0 hsorted.1 hsorted.2⟩

/-- Two different values returned by `dedupClose` are more than `eps` apart. -/
theorem dedupClose_apart (xs : List ℚ) {eps : ℚ} (heps : 0 ≤ eps) {a b : ℚ}
    (ha : a ∈ dedupClose xs eps) (hb : b ∈ dedupClose xs eps) (hab : a ≠ b) :
    eps < |b - a| := by
  have hp : List.Pairwise (fun a b : ℚ => eps < |b - a|) (dedupClose xs eps) := by
    refine List.Pairwise.imp ?_ (dedupClose_pairwise xs heps)
    intro a b h
    exact lt_of_lt_of_le h (le_abs_self (b - a))
  have hsymm : Symmetric (fun a b : ℚ => eps < |b - a|) := by
    intro a b h
    rw [abs_sub_comm]
    exact h
  exact List.Pairwise.forall hsymm hp ha hb hab

theorem abs_lt_iff_apart {eps a b : ℚ} : eps < |b - a| ↔ eps < b - a ∨ eps < a - b := by
  rw [lt_abs]
  constructor
  · rintro (h | h)
    · exact Or.inl h
    · exact Or.inr (by linarith)
  · rintro (h | h)
    · exact Or.inl h
    · exact Or.inr (by linarith)

/-- C6: for `eps >= 0` the result of `dedupClose` is strictly increasing, adjacent values
differ by more than `eps`, no two returned values are within `eps` of each other, and
the empty input gives the empty result. -/
theorem dedupClose_strict_gaps (xs : List ℚ) (eps : ℚ) (heps : 0 ≤ eps) :
    List.Pairwise (· < ·) (dedupClose xs eps) ∧
    List.Chain' (fun a b : ℚ => eps < |b - a|) (dedupClose xs eps) ∧
    List.Pairwise (fun a b : ℚ => ¬ |b - a| ≤ eps) (dedupClose xs eps) ∧
    dedupClose [] eps = [] := by
  have hp := dedupClose_pairwise xs heps
  refine ⟨?_, ?_, ?_, rfl⟩
  · refine List.Pairwise.imp ?_ hp
    intro a b h
    linarith
  · apply List.Pairwise.chain'
    refine List.Pairwise.imp ?_ hp
    intro a b h
    exact lt_of_lt_of_le h (le_abs_self (b - a))
  · refine List.Pairwise.imp ?_ hp
    intro a b h
    exact not_le.mpr (lt_of_lt_of_le h (le_abs_self (b - a)))

/-- Witness for C6 on `[3, 1, 2, 5]` with `eps = 1`. -/
theorem dedupClose_strict_gaps_witness :
    (0 : ℚ) ≤ 1 ∧ dedupClose [3, 1, 2, 5] 1 = [1, 3, 5] ∧
    List.Pairwise (· < ·) (dedupClose [3, 1, 2, 5] 1) ∧
    List.Chain' (fun a b : ℚ => 1 < |b - a|) (dedupClose [3, 1, 2, 5] 1) ∧
    List.Pairwise (fun a b : ℚ => ¬ |b - a| ≤ 1) (dedupClose [3, 1, 2, 5] 1) ∧
    dedupClose [] 1 = [] :=
  ⟨by norm_num, by norm_num [dedupClose, sortAsc, dedupLoop],
    dedupClose_strict_gaps [3, 1, 2, 5] 1 (by norm_num)⟩

/-! ## Facts about the walk of `hasRegularSpacing` -/

/-- No element is found once the target is more than `eps` above every element. -/
theorem existsNear_false_of_gt {xs : List ℚ} {M : ℚ} (hM : ∀ y ∈ xs, y ≤ M) (s : Nat)
    {t eps : ℚ} (ht : M + eps < t) : existsNear xs s t eps = false := by
  cases h : existsNear xs s t eps with
  | false => rfl
  | true =>
    obtain ⟨y, hy, hclose⟩ := existsNear_sound h
    have hyM := hM y ((List.drop_sublist s xs).subset hy)
    have := (abs_le.mp hclose).1
    linarith

theorem walk_succ_miss {xs : List ℚ} {s : Nat} {spacing eps nextVal : ℚ} (fuel count : Nat)
    (h : existsNear xs s nextVal eps = false) :
    walk xs s spacing eps (fuel + 1) nextVal count = some count := by
  simp [walk, h]

theorem walk_succ_hit {xs : List ℚ} {s : Nat} {spacing eps nextVal : ℚ} (fuel count : Nat)
    (h : existsNear xs s nextVal eps = true) :
    walk xs s spacing eps (fuel + 1) nextVal count =
      walk xs s spacing eps fuel (nextVal + spacing) (count + 1) := by
  simp [walk, h]

/-- The walk leaves its loop within `n + 1` iterations when `n` further steps carry the
target beyond the largest element plus `eps`. -/
theorem walk_terminates_within {xs : List ℚ} {M spacing eps : ℚ} (hM : ∀ y ∈ xs, y ≤ M)
    (s : Nat) :
    ∀ (n : Nat) (nextVal : ℚ) (count fuel : Nat), M + eps - nextVal < n * spacing →
      n < fuel → ∃ c, walk xs s spacing eps fuel nextVal count = some c := by
  intro n
  induction n with
  | zero =>
    intro nextVal count fuel hlt hfuel
    obtain ⟨f, rfl⟩ := Nat.exists_eq_succ_of_ne_zero (Nat.pos_iff_ne_zero.mp hfuel)
    have hmiss : existsNear xs s nextVal eps = false :=
      existsNear_false_of_gt hM s (by simp at hlt; linarith)
    exact ⟨count, walk_succ_miss f count hmiss⟩
  | succ n ih =>
    intro nextVal count fuel hlt hfuel
    have hpos : fuel ≠ 0 := by omega
    obtain ⟨f, rfl⟩ := Nat.exists_eq_succ_of_ne_zero hpos
    cases hhit : existsNear xs s nextVal eps with
    | false => exact ⟨count, walk_succ_miss f count hhit⟩
    | true =>
      rw [walk_succ_hit f count hhit]
      refine ih (nextVal + spacing) (count + 1) f ?_ (by omega)
      push_cast at hlt
      linarith

theorem exists_bounds (xs : List ℚ) : ∃ L M : ℚ, ∀ y ∈ xs, L ≤ y ∧ y ≤ M := by
  induction xs with
  | nil => exact ⟨0, 0, fun y hy => by simp at hy⟩
  | cons a t ih =>
    obtain ⟨L, M, h⟩ := ih
    refine ⟨min a L, max a M, ?_⟩
    intro y hy
    rcases List.mem_cons.mp hy with rfl | hy
    · exact ⟨min_le_left _ _, le_max_left _ _⟩
    · exact ⟨le_trans (min_le_right _ _) (h y hy).1, le_trans (h y hy).2 (le_max_right _ _)⟩

/-- For a positive spacing some number of iterations is enough for the walk from every
start of the list, whatever the search offset and the initial count. -/
theorem walk_terminates (xs : List ℚ) {spacing : ℚ} (hsp : 0 < spacing) (eps : ℚ) :
    ∃ N : Nat, ∀ xi ∈ xs, ∀ (s count fuel : Nat), N ≤ fuel →
      ∃ c, walk xs s spacing eps fuel (xi + spacing) count = some c := by
  obtain ⟨L, M, hLM⟩ := exists_bounds xs
  obtain ⟨n, hn⟩ := exists_nat_gt ((M + eps - (L + spacing)) / spacing)
  refine ⟨n + 1, ?_⟩
  intro xi hxi s count fuel hfuel
  refine walk_terminates_within (fun y hy => (hLM y hy).2) s n (xi + spacing) count fuel
    ?_ (by omega)
  rw [div_lt_iff₀ hsp] at hn
  have := (hLM xi hxi).1
  linarith

/-- C9: whatever the fuel, the data and `eps`, `hasRegularSpacing` returns false when
`spacing <= 0`, or `minCount < 3`, or the input has fewer points than `minCount`; in
particular it returns false for `minCount = 2`. -/
theorem hasRegularSpacing_guards (fuel : Nat) (input : PointSet) (spacing : ℚ)
    (minCount : Nat) (eps : ℚ) :
    (spacing ≤ 0 → hasRegularSpacing fuel input spacing minCount eps = some false) ∧
    (minCount < 3 → hasRegularSpacing fuel input spacing minCount eps = some false) ∧
    (input.pts.length < minCount →
      hasRegularSpacing fuel input spacing minCount eps = some false) ∧
    hasRegularSpacing fuel input spacing 2 eps = some false := by
  refine ⟨?_, ?_, ?_, ?_⟩
  · intro h
    simp [hasRegularSpacing, h]
  · intro h
    simp [hasRegularSpacing, h]
  · intro h
    simp [hasRegularSpacing, h]
  · simp [hasRegularSpacing]

/-- A scanned point is kept, or is closer than `d` to the last kept coordinate, or is
closer than `d` to a kept point at or below it. -/
theorem keepLoop_dropped (d : ℚ) (l : List Point) :
    ∀ last, (∀ p ∈ l, last ≤ p.x) → List.Pairwise (fun a b : Point => a.x ≤ b.x) l →
      ∀ p ∈ l, p ∈ keepLoop d last l ∨ p.x - last < d ∨
        ∃ q ∈ keepLoop d last l, q.x ≤ p.x ∧ p.x - q.x < d := by
  induction l with
  | nil => intro last _ _ p hp; simp at hp
  | cons y rest ih =>
    intro last hlast hsorted p hp
    have hy : last ≤ y.x := hlast y (List.mem_cons_self _ _)
    rw [List.pairwise_cons] at hsorted
    by_cases h : d ≤ |y.x - last|
    · rw [keepLoop_cons_keep rest h]
      rcases List.mem_cons.mp hp with rfl | hp
      · exact Or.inl (List.mem_cons_self _ _)
      · rcases ih y.x hsorted.1 hsorted.2 p hp with h1 | h2 | ⟨q, hq, hqp⟩
        · exact Or.inl (List.mem_cons_of_mem _ h1)
        · exact Or.inr (Or.inr ⟨y, List.mem_cons_self _ _, hsorted.1 p hp, h2⟩)
        · exact Or.inr (Or.inr ⟨q, List.mem_cons_of_mem _ hq, hqp⟩)
    · rw [keepLoop_cons_skip rest h]
      rcases List.mem_cons.mp hp with rfl | hp
      · rw [abs_of_nonneg (sub_nonneg.mpr hy)] at h
        exact Or.inr (Or.inl (not_le.mp h))
      · exact ih last (fun r hr => hlast r (List.mem_cons_of_mem _ hr)) hsorted.2 p hp

/-- Greedy stays ahead: a selection from an ascending list whose members are pairwise
at least `d` apart, and at least `d` above a coordinate that is not below the last
kept one, has at most as many members as the scan keeps. -/
theorem keepLoop_length_optimal (d : ℚ) (l : List Point) :
    List.Pairwise (fun a b : Point => a.x ≤ b.x) l →
      ∀ (last last2 : ℚ) (T : List Point), last ≤ last2 → (∀ p ∈ l, last ≤ p.x) →
        List.Sublist T l → List.Pairwise (fun a b : Point => d ≤ b.x - a.x) T →
        (∀ t ∈ T, d ≤ t.x - last2) → T.length ≤ (keepLoop d last l).length := by
  induction l with
  | nil =>
    intro _ last last2 T _ _ hsub _ _
    rw [List.sublist_nil.mp hsub]
    exact Nat.zero_le _
  | cons y rest ih =>
    intro hsorted last last2 T hle hlast hsub hpair hcompat
    rw [List.pairwise_cons] at hsorted
    have hy : last ≤ y.x := hlast y (List.mem_cons_self _ _)
    have hrestlast : ∀ p ∈ rest, last ≤ p.x := fun p hp => hlast p (List.mem_cons_of_mem _ hp)
    by_cases h : d ≤ |y.x - last|
    · rw [keepLoop_cons_keep rest h]
      simp only [List.length_cons]
      cases T with
      | nil => exact Nat.zero_le _
      | cons t0 T2 =>
        rw [List.pairwise_cons] at hpair
        simp only [List.length_cons]
        apply Nat.succ_le_succ
        have hT2 : List.Sublist T2 rest := by
          rcases List.sublist_cons_iff.mp hsub with h1 | ⟨r, hr, hr2⟩
          · exact (List.sublist_cons_self t0 T2).trans h1
          · have := List.cons.inj hr
            rw [this.2]
            exact hr2
        have ht0 : y.x ≤ t0.x := by
          rcases List.sublist_cons_iff.mp hsub with h1 | ⟨r, hr, _⟩
          · exact hsorted.1 t0 (h1.subset (List.mem_cons_self _ _))
          · have := List.cons.inj hr
            rw [this.1]
        exact ih hsorted.2 y.x t0.x T2 ht0 hsorted.1 hT2 hpair.2
          (fun t ht => hpair.1 t ht)
    · rw [keepLoop_cons_skip rest h]
      rw [abs_of_nonneg (sub_nonneg.mpr hy)] at h
      have hTrest : List.Sublist T rest := by
        rcases List.sublist_cons_iff.mp hsub with h1 | ⟨r, hr, _⟩
        · exact h1
        · exfalso
          have := hcompat y (by rw [hr]; exact List.mem_cons_self _ _)
          linarith
      exact ih hsorted.2 last last2 T hle hrestlast hTrest hpair hcompat

/-- The filter result is at least as long as any selection of points of the sorted
input that are pairwise at least `d` apart. -/
theorem filteredPts_length_optimal {sortPts : List Point → List Point}
    (hs : IsSortByX sortPts) (S : PointSet) (d : ℚ) (T : List Point)
    (hsub : List.Sublist T (sortPts S.pts))
    (hpair : List.Pairwise (fun a b : Point => d ≤ b.x - a.x) T) :
    T.length ≤ (filteredPts sortPts S d).length := by
  unfold filteredPts
  have hasc := hs.ascending S.pts
  cases hv : sortPts S.pts with
  | nil =>
    rw [hv] at hsub
    simp [List.sublist_nil.mp hsub]
  | cons v0 rest =>
    rw [hv] at hsub
    rw [hv, List.pairwise_cons] at hasc
    simp only [List.length_cons]
    cases T with
    | nil => exact Nat.zero_le _
    | cons t0 T2 =>
      rw [List.pairwise_cons] at hpair
      simp only [List.length_cons]
      apply Nat.succ_le_succ
      have hT2 : List.Sublist T2 rest := by
        rcases List.sublist_cons_iff.mp hsub with h1 | ⟨r, hr, hr2⟩
        · exact (List.sublist_cons_self t0 T2).trans h1
        · have := List.cons.inj hr
          rw [this.2]
          exact hr2
      have ht0 : v0.x ≤ t0.x := by
        rcases List.sublist_cons_iff.mp hsub with h1 | ⟨r, hr, _⟩
        · exact hasc.1 t0 (h1.subset (List.mem_cons_self _ _))
        · have := List.cons.inj hr
          rw [this.1]
      exact keepLoop_length_optimal d rest hasc.2 v0.x t0.x T2 ht0 hasc.1 hT2 hpair.2
        (fun t ht => hpair.1 t ht)

/-! ## More claims about `filterByMinDistance` -/

/-- C13: for `minDist >= 0` the filter returns a sublist (order preserved) of the input
sorted ascending by coordinate, which is a permutation of the input: every output
point is an input point with its coordinate and attributes unchanged, and no point
occurs more often in the output than in the input. -/
theorem filterByMinDistance_sublist_of_sorted (sortPts : List Point → List Point)
    (hs : IsSortByX sortPts) (S : PointSet) (minDist : ℚ) (hd : 0 ≤ minDist) :
    ∃ out, filterByMinDistance sortPts S minDist = .ok out ∧
      List.Sublist out.pts (sortPts S.pts) ∧
      List.Perm (sortPts S.pts) S.pts ∧
      List.Pairwise (fun a b : Point => a.x ≤ b.x) (sortPts S.pts) ∧
      (∀ p ∈ out.pts, p ∈ S.pts) ∧
      (∀ p, out.pts.count p ≤ S.pts.count p) := by
  refine ⟨⟨filteredPts sortPts S minDist⟩, filterByMinDistance_eq hs S hd,
    filteredPts_sublist sortPts S minDist, hs.perm S.pts, hs.ascending S.pts, ?_, ?_⟩
  · intro p hp
    exact (hs.perm S.pts).mem_iff.mp ((filteredPts_sublist sortPts S minDist).subset hp)
  · intro p
    have h1 := (filteredPts_sublist sortPts S minDist).count_le p
    have h2 := (hs.perm S.pts).count_eq p
    show (filteredPts sortPts S minDist).count p ≤ S.pts.count p
    omega

/-- Witness for C13 on the point set of `main` with `minDist = 0.05`. -/
theorem filterByMinDistance_sublist_of_sorted_witness :
    IsSortByX sortByX ∧ (0 : ℚ) ≤ 5 / 100 ∧
    ∃ out, filterByMinDistance sortByX demoPoints (5 / 100) = .ok out ∧
      List.Sublist out.pts (sortByX demoPoints.pts) ∧
      List.Perm (sortByX demoPoints.pts) demoPoints.pts ∧
      List.Pairwise (fun a b : Point => a.x ≤ b.x) (sortByX demoPoints.pts) ∧
      (∀ p ∈ out.pts, p ∈ demoPoints.pts) ∧
      (∀ p, out.pts.count p ≤ demoPoints.pts.count p) :=
  ⟨sortByX_isSort, by norm_num,
    filterByMinDistance_sublist_of_sorted sortByX sortByX_isSort demoPoints (5 / 100)
      (show (0 : ℚ) ≤ 5 / 100 by norm_num)⟩

/-- C14: for `minDist >= 0` the filter returns the empty point set exactly when the
input is empty; for a non-empty input the output has a first point, it is the first
point of the sorted input, and its coordinate is at most every input coordinate. -/
theorem filterByMinDistance_empty_iff_first (sortPts : List Point → List Point)
    (hs : IsSortByX sortPts) (S : PointSet) (minDist : ℚ) (hd : 0 ≤ minDist) :
    ∃ out, filterByMinDistance sortPts S minDist = .ok out ∧
      (out.pts = [] ↔ S.pts = []) ∧
      out.pts.head? = (sortPts S.pts).head? ∧
      (S.pts ≠ [] → ∃ p0, out.pts.head? = some p0 ∧ p0 ∈ S.pts ∧ ∀ q ∈ S.pts, p0.x ≤ q.x) := by
  refine ⟨⟨filteredPts sortPts S minDist⟩, filterByMinDistance_eq hs S hd, ?_, ?_, ?_⟩
  · show filteredPts sortPts S minDist = [] ↔ S.pts = []
    rw [← hs.eq_nil_iff S.pts]
    unfold filteredPts
    cases sortPts S.pts <;> simp
  · show (filteredPts sortPts S minDist).head? = (sortPts S.pts).head?
    unfold filteredPts
    cases sortPts S.pts <;> simp
  · intro hne
    show ∃ p0, (filteredPts sortPts S minDist).head? = some p0 ∧ _
    have hasc := hs.ascending S.pts
    have hperm := hs.perm S.pts
    unfold filteredPts
    cases hv : sortPts S.pts with
    | nil => exact absurd ((hs.eq_nil_iff S.pts).mp hv) hne
    | cons v0 rest =>
      rw [hv] at hperm
      rw [hv, List.pairwise_cons] at hasc
      refine ⟨v0, rfl, hperm.mem_iff.mp (List.mem_cons_self _ _), ?_⟩
      intro q hq
      rcases List.mem_cons.mp (hperm.mem_iff.mpr hq) with rfl | hq
      · exact le_rfl
      · exact hasc.1 q hq

/-- Witness for C14 on the point set of `main` with `minDist = 0.05`. -/
theorem filterByMinDistance_empty_iff_first_witness :
    IsSortByX sortByX ∧ (0 : ℚ) ≤ 5 / 100 ∧
    ∃ out, filterByMinDistance sortByX demoPoints (5 / 100) = .ok out ∧
      (out.pts = [] ↔ demoPoints.pts = []) ∧
      out.pts.head? = (sortByX demoPoints.pts).head? ∧
      (demoPoints.pts ≠ [] →
        ∃ p0, out.pts.head? = some p0 ∧ p0 ∈ demoPoints.pts ∧ ∀ q ∈ demoPoints.pts, p0.x ≤ q.x) :=
  ⟨sortByX_isSort, by norm_num,
    filterByMinDistance_empty_iff_first sortByX sortByX_isSort demoPoints (5 / 100)
      (show (0 : ℚ) ≤ 5 / 100 by norm_num)⟩

/-- The point set of `main` is strictly ascending by coordinate, so every conforming
sort routine leaves it unchanged. -/
theorem demoPoints_strict :
    List.Pairwise (fun a b : Point => a.x < b.x) demoPoints.pts := by
  norm_num [demoPoints]

/-- Scenario A for every conforming sort routine. -/
theorem scenarioA {sortPts : List Point → List Point} (hs : IsSortByX sortPts) :
    filterByMinDistance sortPts demoPoints (5 / 100) = .ok demoFiltered := by
  rw [filterByMinDistance_eq hs demoPoints (show (0 : ℚ) ≤ 5 / 100 by norm_num)]
  unfold filteredPts
  rw [hs.fixes_strict demoPoints_strict]
  norm_num [demoPoints, demoFiltered, keepLoop, le_abs]

/-- C15: for `minDist >= 0` every input point that is not in the output has a kept point
with coordinate at or below its own at distance strictly less than `minDist`; with
`minDist = 0` the output is a rearrangement of the whole input; and Scenario A: the
point set of `main` with `minDist = 0.05` yields exactly
0.05, 1.0, 2.01, 3.0, 5.0, 7.0, 9.0. -/
theorem filterByMinDistance_dropped_only_if_close (sortPts : List Point → List Point)
    (hs : IsSortByX sortPts) (S : PointSet) (minDist : ℚ) (hd : 0 ≤ minDist) :
    (∃ out, filterByMinDistance sortPts S minDist = .ok out ∧
      (∀ p ∈ S.pts, p ∉ out.pts → ∃ q ∈ out.pts, q.x ≤ p.x ∧ |p.x - q.x| < minDist) ∧
      (minDist = 0 → List.Perm out.pts S.pts)) ∧
    filterByMinDistance sortPts demoPoints (5 / 100) = .ok demoFiltered := by
  refine ⟨⟨⟨filteredPts sortPts S minDist⟩, filterByMinDistance_eq hs S hd, ?_, ?_⟩,
    scenarioA hs⟩
  · intro p hp hnot
    change p ∉ filteredPts sortPts S minDist at hnot
    show ∃ q ∈ filteredPts sortPts S minDist, _
    have hasc := hs.ascending S.pts
    have hmem := (hs.perm S.pts).mem_iff.mpr hp
    unfold filteredPts at hnot ⊢
    cases hv : sortPts S.pts with
    | nil => rw [hv] at hmem; simp at hmem
    | cons v0 rest =>
      rw [hv] at hmem hnot
      rw [hv, List.pairwise_cons] at hasc
      simp only [List.mem_cons, not_or] at hnot
      rcases List.mem_cons.mp hmem with rfl | hrest
      · exact absurd rfl hnot.1
      · have hle : v0.x ≤ p.x := hasc.1 p hrest
        rcases keepLoop_dropped minDist rest v0.x hasc.1 hasc.2 p hrest with h1 | h2 | ⟨q, hq, hqp⟩
        · exact absurd h1 hnot.2
        · refine ⟨v0, List.mem_cons_self _ _, hle, ?_⟩
          rw [abs_of_nonneg (sub_nonneg.mpr hle)]
          exact h2
        · refine ⟨q, List.mem_cons_of_mem _ hq, hqp.1, ?_⟩
          rw [abs_of_nonneg (sub_nonneg.mpr hqp.1)]
          exact hqp.2
  · intro hzero
    subst hzero
    show List.Perm (filteredPts sortPts S 0) S.pts
    have : filteredPts sortPts S 0 = sortPts S.pts := by
      unfold filteredPts
      cases sortPts S.pts with
      | nil => rfl
      | cons v0 rest => simp only [keepLoop_zero]
    rw [this]
    exact hs.perm S.pts

/-- Witness for C15 on a set with a dropped point: `{0, 1, 3}` with `minDist = 2`. -/
theorem filterByMinDistance_dropped_only_if_close_witness :
    IsSortByX sortByX ∧ (0 : ℚ) ≤ 2 ∧
    ((∃ out, filterByMinDistance sortByX ⟨[⟨0, []⟩, ⟨1, []⟩, ⟨3, []⟩]⟩ 2 = .ok out ∧
      (∀ p ∈ (⟨[⟨0, []⟩, ⟨1, []⟩, ⟨3, []⟩]⟩ : PointSet).pts, p ∉ out.pts →
        ∃ q ∈ out.pts, q.x ≤ p.x ∧ |p.x - q.x| < 2) ∧
      ((2 : ℚ) = 0 → List.Perm out.pts (⟨[⟨0, []⟩, ⟨1, []⟩, ⟨3, []⟩]⟩ : PointSet).pts)) ∧
    filterByMinDistance sortByX demoPoints (5 / 100) = .ok demoFiltered) :=
  ⟨sortByX_isSort, by norm_num,
    filterByMinDistance_dropped_only_if_close sortByX sortByX_isSort
      ⟨[⟨0, []⟩, ⟨1, []⟩, ⟨3, []⟩]⟩ 2 (by norm_num)⟩

/-! ## Fuel of the walk -/

/-- A walk that has left its loop within the fuel gives the same count with more fuel. -/
theorem walk_fuel_mono {xs : List ℚ} {s : Nat} {spacing eps : ℚ} :
    ∀ (fuel : Nat) (nextVal : ℚ) (count c : Nat),
      walk xs s spacing eps fuel nextVal count = some c →
      ∀ k : Nat, walk xs s spacing eps (fuel + k) nextVal count = some c := by
  intro fuel
  induction fuel with
  | zero => intro nextVal count c h; simp [walk] at h
  | succ f ih =>
    intro nextVal count c h k
    rw [Nat.add_right_comm]
    cases hhit : existsNear xs s nextVal eps with
    | false =>
      rw [walk_succ_miss f count hhit] at h
      rw [walk_succ_miss (f + k) count hhit]
      exact h
    | true =>
      rw [walk_succ_hit f count hhit] at h
      rw [walk_succ_hit (f + k) count hhit]
      exact ih _ _ _ h k

theorem scanStarts_fuel_mono {xs : List ℚ} {spacing eps : ℚ} {minCount : Nat} (fuel k : Nat) :
    ∀ (idxs : List Nat) (b : Bool), scanStarts fuel xs spacing minCount eps idxs = some b →
      scanStarts (fuel + k) xs spacing minCount eps idxs = some b := by
  intro idxs
  induction idxs with
  | nil => intro b h; simpa [scanStarts] using h
  | cons i more ih =>
    intro b h
    unfold scanStarts at h ⊢
    cases hxi : xs[i]? with
    | none => simpa [hxi] using h
    | some xi =>
      simp only [hxi] at h ⊢
      cases hw : walk xs (i + 1) spacing eps fuel (xi + spacing) 1 with
      | none => simp [hw] at h
      | some c =>
        rw [walk_fuel_mono fuel _ _ c hw k]
        simp only [hw] at h
        simp only
        by_cases hc : c ≥ minCount
        · simpa [hc] using h
        · simp only [hc, if_false] at h ⊢
          exact ih b h

/-- A result of `hasRegularSpacing` does not change when the fuel grows. -/
theorem hasRegularSpacing_fuel_mono {input : PointSet} {spacing eps : ℚ} {minCount : Nat}
    {fuel : Nat} {b : Bool} (h : hasRegularSpacing fuel input spacing minCount eps = some b)
    (k : Nat) : hasRegularSpacing (fuel + k) input spacing minCount eps = some b := by
  unfold hasRegularSpacing at h ⊢
  by_cases hg : spacing ≤ 0 ∨ minCount < 3 ∨ input.pts.length < minCount
  · rw [if_pos hg] at h ⊢
    exact h
  · rw [if_neg hg] at h ⊢
    simp only at h ⊢
    by_cases hl : (dedupClose (input.pts.map (·.x)) eps).length < minCount
    · rw [if_pos hl] at h ⊢
      exact h
    · rw [if_neg hl] at h ⊢
      exact scanStarts_fuel_mono fuel k _ b h

theorem mem_of_getElem?_eq_some {xs : List ℚ} {i : Nat} {xi : ℚ} (h : xs[i]? = some xi) :
    xi ∈ xs := by
  obtain ⟨hi, rfl⟩ := List.getElem?_eq_some.mp h
  exact List.getElem_mem hi

/-- The outer loop returns a result when every walk leaves its loop within the fuel. -/
theorem scanStarts_some {fuel : Nat} {xs : List ℚ} {spacing eps : ℚ} {minCount : Nat}
    (hterm : ∀ xi ∈ xs, ∀ s : Nat, ∃ c, walk xs s spacing eps fuel (xi + spacing) 1 = some c) :
    ∀ idxs : List Nat, ∃ b, scanStarts fuel xs spacing minCount eps idxs = some b := by
  intro idxs
  induction idxs with
  | nil => exact ⟨false, rfl⟩
  | cons i more ih =>
    unfold scanStarts
    cases hxi : xs[i]? with
    | none => exact ⟨false, rfl⟩
    | some xi =>
      obtain ⟨c, hc⟩ := hterm xi (mem_of_getElem?_eq_some hxi) (i + 1)
      simp only [hc]
      by_cases hcm : c ≥ minCount
      · exact ⟨true, by simp [hcm]⟩
      · simp only [hcm, if_false]
        exact ih

/-- For every input and all parameters some fuel is enough for `hasRegularSpacing` to
return a result. -/
theorem hasRegularSpacing_some (input : PointSet) (spacing : ℚ) (minCount : Nat) (eps : ℚ) :
    ∃ N, ∀ fuel, N ≤ fuel → ∃ b, hasRegularSpacing fuel input spacing minCount eps = some b := by
  by_cases hg : spacing ≤ 0 ∨ minCount < 3 ∨ input.pts.length < minCount
  · refine ⟨0, fun fuel _ => ⟨false, ?_⟩⟩
    unfold hasRegularSpacing
    rw [if_pos hg]
  · have hsp : 0 < spacing := by
      by_contra h
      exact hg (Or.inl (not_lt.mp h))
    obtain ⟨N, hN⟩ := walk_terminates (dedupClose (input.pts.map (·.x)) eps) hsp eps
    refine ⟨N, fun fuel hfuel => ?_⟩
    unfold hasRegularSpacing
    rw [if_neg hg]
    simp only
    by_cases hl : (dedupClose (input.pts.map (·.x)) eps).length < minCount
    · rw [if_pos hl]
      exact ⟨false, rfl⟩
    · rw [if_neg hl]
      exact scanStarts_some (fun xi hxi s => hN xi hxi s 1 fuel hfuel) _

/-- No element is found with a negative tolerance. -/
theorem existsNear_false_of_neg (xs : List ℚ) (s : Nat) (t : ℚ) {eps : ℚ} (heps : eps < 0) :
    existsNear xs s t eps = false := by
  cases h : existsNear xs s t eps with
  | false => rfl
  | true =>
    obtain ⟨y, _, hclose⟩ := existsNear_sound h
    have := abs_nonneg (y - t)
    linarith

/-- The final count of a walk is the initial count plus a number of hits, and the target
of the last hit is at most `eps` above the largest element. -/
theorem walk_hits_bound {xs : List ℚ} {M : ℚ} (hM : ∀ y ∈ xs, y ≤ M) {s : Nat}
    {spacing eps : ℚ} :
    ∀ (fuel : Nat) (nextVal : ℚ) (count c : Nat),
      walk xs s spacing eps fuel nextVal count = some c →
      ∃ hits : Nat, c = count + hits ∧
        (hits = 0 ∨ nextVal + ((hits : ℚ) - 1) * spacing ≤ M + eps) := by
  intro fuel
  induction fuel with
  | zero => intro nextVal count c h; simp [walk] at h
  | succ f ih =>
    intro nextVal count c h
    cases hhit : existsNear xs s nextVal eps with
    | false =>
      rw [walk_succ_miss f count hhit] at h
      exact ⟨0, by simpa using (Option.some.inj h).symm, Or.inl rfl⟩
    | true =>
      rw [walk_succ_hit f count hhit] at h
      obtain ⟨y, hy, hclose⟩ := existsNear_sound hhit
      have hyM := hM y ((List.drop_sublist s xs).subset hy)
      have hclose1 := (abs_le.mp hclose).1
      obtain ⟨hits, hc, hb⟩ := ih (nextVal + spacing) (count + 1) c h
      refine ⟨hits + 1, by omega, Or.inr ?_⟩
      push_cast
      rcases hb with h0 | hb
      · subst h0
        simp only [Nat.cast_zero, zero_add, sub_self, zero_mul, add_zero]
        linarith
      · linarith

/-! ## Scenario C -/

/-- Scenario C evaluated with fuel 3: the walk from 1.0 finds 5.0 and 9.0. -/
theorem scenarioC_eval : hasRegularSpacing 3 demoFiltered 4 3 (1 / 1000) = some true := by
  norm_num [hasRegularSpacing, demoFiltered, dedupClose, sortAsc, dedupLoop, scanStarts,
    walk, existsNear, lowerBound, List.range, List.range.loop, lt_abs, abs_le]

/-- C11, counterexample: on the filtered set of Scenario A with `d = 4`, `minCount = 3` and
`eps = 1e-3` the detector returns true with fuel 3, and with no fuel does it return
false. -/
theorem scenarioC_not_false :
    hasRegularSpacing 3 demoFiltered 4 3 (1 / 1000) = some true ∧
    ¬ ∃ fuel, hasRegularSpacing fuel demoFiltered 4 3 (1 / 1000) = some false := by
  refine ⟨scenarioC_eval, ?_⟩
  rintro ⟨fuel, hfalse⟩
  have h1 := hasRegularSpacing_fuel_mono hfalse 3
  have h2 := hasRegularSpacing_fuel_mono scenarioC_eval fuel
  rw [Nat.add_comm] at h2
  rw [h1] at h2
  exact absurd h2 (by decide)

/-- C11, amended: on the filtered set of Scenario A with `d = 4`, `minCount = 3` and
`eps = 1e-3` the detector returns true (1.0, 5.0, 9.0 is a progression with step 4),
for every fuel of at least 3. -/
theorem scenarioC_true (fuel : Nat) (hfuel : 3 ≤ fuel) :
    hasRegularSpacing fuel demoFiltered 4 3 (1 / 1000) = some true := by
  obtain ⟨k, rfl⟩ := Nat.exists_eq_add_of_le hfuel
  exact hasRegularSpacing_fuel_mono scenarioC_eval k

/-- Witness for the amended C11 with fuel 10. -/
theorem scenarioC_true_witness :
    3 ≤ 10 ∧ hasRegularSpacing 10 demoFiltered 4 3 (1 / 1000) = some true :=
  ⟨by decide, scenarioC_true 10 (by decide)⟩

/-! ## The walk of the code and the walk of the specification -/

/-- The first element not less than `v` is the head of what remains after dropping the
elements less than `v`. -/
theorem lowerBound_eq_head?_dropWhile (l : List ℚ) (v : ℚ) :
    lowerBound l v = (l.dropWhile (fun y => decide (y < v))).head? := by
  unfold lowerBound
  induction l with
  | nil => rfl
  | cons a t ih =>
    by_cases h : a < v
    · rw [List.find?_cons_of_neg _ (by simpa using h), List.dropWhile_cons_of_pos (by simpa using h)]
      exact ih
    · rw [List.find?_cons_of_pos _ (by simpa using h), List.dropWhile_cons_of_neg (by simpa using h)]
      rfl

/-- A prefix of elements less than `v` does not change the lower bound. -/
theorem lowerBound_append_of_lt {P : List ℚ} {v : ℚ} (hP : ∀ y ∈ P, y < v) (l : List ℚ) :
    lowerBound (P ++ l) v = lowerBound l v := by
  induction P with
  | nil => rfl
  | cons a t ih =>
    have ha : a < v := hP a (List.mem_cons_self _ _)
    unfold lowerBound at ih ⊢
    rw [List.cons_append, List.find?_cons_of_neg _ (by simpa using ha)]
    exact ih (fun y hy => hP y (List.mem_cons_of_mem _ hy))

/-- With `2 * eps < spacing` and `0 < spacing` the walk of the code, which always searches
from the same index, and the walk of the specification, which searches behind the last
match, proceed alike: everything the code still searches before the suffix of the
specification is below the target window. -/
theorem walk_eq_walkAdvancing {xs : List ℚ} {s : Nat} {spacing eps : ℚ} (hsp : 0 < spacing)
    (hwide : 2 * eps < spacing) :
    ∀ (fuel : Nat) (P suffix : List ℚ) (nextVal : ℚ) (count : Nat),
      xs.drop s = P ++ suffix → (∀ y ∈ P, y < nextVal - eps) →
      walk xs s spacing eps fuel nextVal count =
        walkAdvancing spacing eps fuel suffix nextVal count := by
  intro fuel
  induction fuel with
  | zero => intro P suffix nextVal count _ _; rfl
  | succ f ih =>
    intro P suffix nextVal count hsplit hP
    have hlb : lowerBound (xs.drop s) (nextVal - eps)
        = (suffix.dropWhile (fun y => decide (y < nextVal - eps))).head? := by
      rw [hsplit, lowerBound_append_of_lt hP, lowerBound_eq_head?_dropWhile]
    have htd := List.takeWhile_append_dropWhile (fun y => decide (y < nextVal - eps)) suffix
    unfold walkAdvancing
    cases hD : suffix.dropWhile (fun y => decide (y < nextVal - eps)) with
    | nil =>
      rw [hD] at hlb
      have hmiss : existsNear xs s nextVal eps = false := by
        unfold existsNear
        rw [hlb]
        rfl
      rw [walk_succ_miss f count hmiss]
    | cons y after =>
      rw [hD] at hlb htd
      by_cases hclose : |y - nextVal| ≤ eps
      · have hhit : existsNear xs s nextVal eps = true := by
          unfold existsNear
          rw [hlb]
          simpa using hclose
        rw [walk_succ_hit f count hhit]
        simp only [hclose, if_true]
        refine ih (P ++ suffix.takeWhile (fun y => decide (y < nextVal - eps)) ++ [y]) after
          (nextVal + spacing) (count + 1) ?_ ?_
        · rw [hsplit]
          calc P ++ suffix
              = P ++ (suffix.takeWhile (fun y => decide (y < nextVal - eps)) ++ y :: after) := by
                rw [htd]
            _ = P ++ suffix.takeWhile (fun y => decide (y < nextVal - eps)) ++ [y] ++ after := by
                simp
        · intro z hz
          rcases List.mem_append.mp hz with hz | hz
          · rcases List.mem_append.mp hz with hz | hz
            · have := hP z hz
              linarith
            · have := List.mem_takeWhile_imp hz
              simp only [decide_eq_true_eq] at this
              linarith
          · rw [List.mem_singleton] at hz
            subst hz
            have := (abs_le.mp hclose).2
            linarith
      · have hmiss : existsNear xs s nextVal eps = false := by
          unfold existsNear
          rw [hlb]
          simpa using hclose
        rw [walk_succ_miss f count hmiss]
        simp only [hclose, if_false]

theorem scanStarts_eq_scanStartsAdvancing {xs : List ℚ} {spacing eps : ℚ} (hsp : 0 < spacing)
    (hwide : 2 * eps < spacing) (fuel minCount : Nat) :
    ∀ idxs : List Nat, scanStarts fuel xs spacing minCount eps idxs =
      scanStartsAdvancing fuel xs spacing minCount eps idxs := by
  intro idxs
  induction idxs with
  | nil => rfl
  | cons i more ih =>
    unfold scanStarts scanStartsAdvancing
    cases hxi : xs[i]? with
    | none => rfl
    | some xi =>
      simp only
      rw [walk_eq_walkAdvancing hsp hwide fuel [] (xs.drop (i + 1)) (xi + spacing) 1 rfl
        (fun y hy => absurd hy (List.not_mem_nil y)), ih]

/-- C18: whenever `spacing > 2 * eps`, for every point set, `minCount` and fuel, the
detector as implemented (every search from index `i + 1`) and the detector of the
specification (every search behind the previous match) return the same result; the
hypothesis `eps >= 0` of the claim is not needed. -/
theorem hasRegularSpacing_eq_advancing (fuel : Nat) (input : PointSet) (spacing : ℚ)
    (minCount : Nat) (eps : ℚ) (hwide : 2 * eps < spacing) :
    hasRegularSpacing fuel input spacing minCount eps =
      hasRegularSpacingAdvancing fuel input spacing minCount eps := by
  unfold hasRegularSpacing hasRegularSpacingAdvancing
  by_cases hg : spacing ≤ 0 ∨ minCount < 3 ∨ input.pts.length < minCount
  · rw [if_pos hg, if_pos hg]
  · have hsp : 0 < spacing := by
      by_contra h
      exact hg (Or.inl (not_lt.mp h))
    rw [if_neg hg, if_neg hg]
    simp only
    rw [scanStarts_eq_scanStartsAdvancing hsp hwide]

/-- Witness for C18 on the filtered set of Scenario A: both detectors return true for
`d = 2`, `minCount = 3`, `eps = 1e-3`. -/
theorem hasRegularSpacing_eq_advancing_witness :
    (2 * (1 / 1000) : ℚ) < 2 ∧
    hasRegularSpacing 5 demoFiltered 2 3 (1 / 1000) =
      hasRegularSpacingAdvancing 5 demoFiltered 2 3 (1 / 1000) ∧
    hasRegularSpacingAdvancing 5 demoFiltered 2 3 (1 / 1000) = some true := by
  have h := hasRegularSpacing_eq_advancing 5 demoFiltered 2 3 (1 / 1000) (by norm_num)
  refine ⟨by norm_num, h, ?_⟩
  rw [← h]
  norm_num [hasRegularSpacing, demoFiltered, dedupClose, sortAsc, dedupLoop, scanStarts,
    walk, existsNear, lowerBound, List.range, List.range.loop, lt_abs, abs_le]

/-! ## Soundness and termination of the walk -/

/-- C12, evaluation at the failing input: for the points 0, 3, 20 with `spacing = 2`,
`minCount = 3` and `eps = 1` the deduplicated array is `[0, 3, 20]` and the detector
returns true, because the walk from 0 searches from index 1 at every step and finds 3
both for the target 2 and for the target 4; no strictly increasing indices
`i0 < i1 < i2` hold a progression within tolerance, and the walk of the specification
returns false. -/
theorem hasRegularSpacing_counts_point_twice :
    hasRegularSpacing 3 overlapPoints 2 3 1 = some true ∧
    dedupClose (overlapPoints.pts.map (·.x)) 1 = [0, 3, 20] ∧
    (¬ ∃ (i0 i1 i2 : Nat) (a0 a1 a2 : ℚ), i0 < i1 ∧ i1 < i2 ∧
        ([0, 3, 20] : List ℚ)[i0]? = some a0 ∧ ([0, 3, 20] : List ℚ)[i1]? = some a1 ∧
        ([0, 3, 20] : List ℚ)[i2]? = some a2 ∧
        |a1 - (a0 + 1 * 2)| ≤ 1 ∧ |a2 - (a0 + 2 * 2)| ≤ 1) ∧
    hasRegularSpacingAdvancing 3 overlapPoints 2 3 1 = some false := by
  refine ⟨?_, ?_, ?_, ?_⟩
  · norm_num [hasRegularSpacing, overlapPoints, dedupClose, sortAsc, dedupLoop, scanStarts,
      walk, existsNear, lowerBound, List.range, List.range.loop, lt_abs, abs_le]
  · norm_num [overlapPoints, dedupClose, sortAsc, dedupLoop, lt_abs]
  · rintro ⟨i0, i1, i2, a0, a1, a2, h01, h12, h0, h1, h2, _, hfar⟩
    have hi2 : i2 < 3 := by
      obtain ⟨h, _⟩ := List.getElem?_eq_some.mp h2
      simpa using h
    have e0 : i0 = 0 := by omega
    have e1 : i1 = 1 := by omega
    have e2 : i2 = 2 := by omega
    subst e0 e1 e2
    simp only [List.getElem?_cons_zero, List.getElem?_cons_succ, Option.some.injEq] at h0 h2
    subst h0 h2
    norm_num [abs_le] at hfar
  · norm_num [hasRegularSpacingAdvancing, overlapPoints, dedupClose, sortAsc, dedupLoop,
      scanStartsAdvancing, walkAdvancing, List.range, List.range.loop, lt_abs, abs_le]

/-- C19, counterexample: for the coordinates 0, 1, 2 with `spacing = 1` and `eps = -1`
the walk from `xs[2] = 2` stops with count 1, that is with no hit, while the bound
`(max(xs) + eps - xs[2]) / spacing` is `-1`. -/
theorem walk_hits_bound_fails_negative_eps :
    dedupClose [0, 1, 2] (-1) = [0, 1, 2] ∧
    ([0, 1, 2] : List ℚ)[2]? = some 2 ∧ (∀ y ∈ ([0, 1, 2] : List ℚ), y ≤ 2) ∧
    walk [0, 1, 2] 3 1 (-1) 1 (2 + 1) 1 = some (1 + 0) ∧
    ¬ ((0 : Nat) : ℚ) ≤ (2 + (-1) - 2) / 1 := by
  refine ⟨?_, rfl, ?_, ?_, ?_⟩
  · norm_num [dedupClose, sortAsc, dedupLoop, lt_abs]
  · intro y hy
    simp only [List.mem_cons, List.mem_singleton, List.not_mem_nil, or_false] at hy
    rcases hy with rfl | rfl | rfl <;> norm_num
  · norm_num [walk, existsNear, lowerBound]
  · norm_num

/-- C19, amended: for every point set, `minCount` and `eps`, and every `spacing > 0`:
some fuel is enough for `hasRegularSpacing` to return a result; some fuel is enough
for the walk from every start of the deduplicated array to leave its loop; and the
final count of the walk from `xs[i]` is one plus a number of hits that is zero when
`eps < 0` and at most `(M + eps - xs[i]) / spacing` when `eps >= 0`, for every upper
bound `M` of the array, in particular its largest element. -/
theorem hasRegularSpacing_terminates (input : PointSet) (spacing : ℚ) (minCount : Nat)
    (eps : ℚ) (hsp : 0 < spacing) :
    (∃ N, ∀ fuel, N ≤ fuel →
      ∃ b, hasRegularSpacing fuel input spacing minCount eps = some b) ∧
    (∃ N, ∀ xi ∈ dedupClose (input.pts.map (·.x)) eps, ∀ (s count fuel : Nat), N ≤ fuel →
      ∃ c, walk (dedupClose (input.pts.map (·.x)) eps) s spacing eps fuel (xi + spacing) count
        = some c) ∧
    (∀ (M : ℚ) (i : Nat) (xi : ℚ) (fuel c : Nat),
      (∀ y ∈ dedupClose (input.pts.map (·.x)) eps, y ≤ M) →
      (dedupClose (input.pts.map (·.x)) eps)[i]? = some xi →
      walk (dedupClose (input.pts.map (·.x)) eps) (i + 1) spacing eps fuel (xi + spacing) 1
        = some c →
      ∃ hits : Nat, c = 1 + hits ∧ (eps < 0 → hits = 0) ∧
        (0 ≤ eps → (hits : ℚ) ≤ (M + eps - xi) / spacing)) := by
  refine ⟨hasRegularSpacing_some input spacing minCount eps,
    walk_terminates _ hsp eps, ?_⟩
  intro M i xi fuel c hM hxi hw
  obtain ⟨hits, hc, hb⟩ := walk_hits_bound hM fuel (xi + spacing) 1 c hw
  refine ⟨hits, hc, ?_, ?_⟩
  · intro hneg
    cases fuel with
    | zero => simp [walk] at hw
    | succ f =>
      rw [walk_succ_miss f 1 (existsNear_false_of_neg _ _ _ hneg)] at hw
      have := Option.some.inj hw
      omega
  · intro heps
    rw [le_div_iff₀ hsp]
    rcases hb with h0 | hb
    · subst h0
      have := hM xi (mem_of_getElem?_eq_some hxi)
      simp only [Nat.cast_zero, zero_mul]
      linarith
    · linarith

/-- Witness for the amended C19 on the filtered set of Scenario A with `spacing = 2`,
`minCount = 3`, `eps = 1e-3`. -/
theorem hasRegularSpacing_terminates_witness :
    (0 : ℚ) < 2 ∧
    (∃ N, ∀ fuel, N ≤ fuel →
      ∃ b, hasRegularSpacing fuel demoFiltered 2 3 (1 / 1000) = some b) ∧
    (∃ N, ∀ xi ∈ dedupClose (demoFiltered.pts.map (·.x)) (1 / 1000),
      ∀ (s count fuel : Nat), N ≤ fuel →
      ∃ c, walk (dedupClose (demoFiltered.pts.map (·.x)) (1 / 1000)) s 2 (1 / 1000) fuel
        (xi + 2) count = some c) ∧
    (∀ (M : ℚ) (i : Nat) (xi : ℚ) (fuel c : Nat),
      (∀ y ∈ dedupClose (demoFiltered.pts.map (·.x)) (1 / 1000), y ≤ M) →
      (dedupClose (demoFiltered.pts.map (·.x)) (1 / 1000))[i]? = some xi →
      walk (dedupClose (demoFiltered.pts.map (·.x)) (1 / 1000)) (i + 1) 2 (1 / 1000) fuel
        (xi + 2) 1 = some c →
      ∃ hits : Nat, c = 1 + hits ∧ ((1 / 1000 : ℚ) < 0 → hits = 0) ∧
        ((0 : ℚ) ≤ 1 / 1000 → (hits : ℚ) ≤ (M + 1 / 1000 - xi) / 2)) :=
  ⟨by norm_num, hasRegularSpacing_terminates demoFiltered 2 3 (1 / 1000) (by norm_num)⟩

/-! ## Claim about `do_task` -/

/-- C20: `do_task` returns 0 exactly when the three acquisitions give a non-null pointer
with a success code and `do_subtask` returns 0, and -1 otherwise; on every path the
release calls are those of the pointers that are non-null at `cleanup:`, each once, in
the order C, B, A, and none is made for a pointer that is null. -/
theorem do_task_result_and_releases (env : TaskEnv) :
    ((do_task env).1 = 0 ↔ allSucceed env) ∧
    (¬ allSucceed env → (do_task env).1 = -1) ∧
    (do_task env).2 = cleanup env.acquire_a.2 (finalB env) (finalC env) ∧
    List.Sublist (do_task env).2
      [Release.release_c (finalC env), Release.release_b (finalB env),
        Release.release_a env.acquire_a.2] ∧
    (Release.release_c (finalC env) ∈ (do_task env).2 ↔ finalC env ≠ 0) ∧
    (Release.release_b (finalB env) ∈ (do_task env).2 ↔ finalB env ≠ 0) ∧
    (Release.release_a env.acquire_a.2 ∈ (do_task env).2 ↔ env.acquire_a.2 ≠ 0) ∧
    (do_task env).2.Nodup := by
  have htrace : (do_task env).2 = cleanup env.acquire_a.2 (finalB env) (finalC env) := by
    unfold do_task finalB finalC
    simp only
    split_ifs <;> simp_all
  have hret : ((do_task env).1 = 0 ↔ allSucceed env) ∧
      (¬ allSucceed env → (do_task env).1 = -1) := by
    unfold do_task allSucceed
    simp only
    split_ifs <;> simp_all <;> tauto
  refine ⟨hret.1, hret.2, htrace, ?_, ?_, ?_, ?_, ?_⟩
  all_goals rw [htrace]; unfold cleanup; split_ifs <;> simp_all

/-! ## Facts about the CSV routines -/

theorem splitAtFirst_append {d : Char} {before : List Char} (h : d ∉ before)
    (after : List Char) : splitAtFirst d (before ++ d :: after) = some (before, after) := by
  induction before with
  | nil => simp [splitAtFirst]
  | cons c cs ih =>
    have hc : c ≠ d := fun e => h (e ▸ List.mem_cons_self _ _)
    have hcs : d ∉ cs := fun e => h (List.mem_cons_of_mem _ e)
    simp [splitAtFirst, hc, ih hcs]

theorem splitAtFirst_none {d : Char} {l : List Char} (h : d ∉ l) : splitAtFirst d l = none := by
  induction l with
  | nil => rfl
  | cons c cs ih =>
    have hc : c ≠ d := fun e => h (e ▸ List.mem_cons_self _ _)
    have hcs : d ∉ cs := fun e => h (List.mem_cons_of_mem _ e)
    simp [splitAtFirst, hc, ih hcs]

/-- A token that ends at a delimiter. -/
theorem getlines_append_delim {delim : Char} {l : List Char} (h : delim ∉ l)
    (rest : List Char) :
    ∀ cur, getlines delim cur (l ++ delim :: rest)
      = (cur.reverse ++ l) :: getlines delim [] rest := by
  induction l with
  | nil => intro cur; simp [getlines]
  | cons c cs ih =>
    intro cur
    have hc : c ≠ delim := fun e => h (e ▸ List.mem_cons_self _ _)
    have hcs : delim ∉ cs := fun e => h (List.mem_cons_of_mem _ e)
    simp [getlines, hc, ih hcs]

/-- A last token that ends at the end of the stream. -/
theorem getlines_last {delim : Char} {l : List Char} (h : delim ∉ l) :
    ∀ cur, cur.reverse ++ l ≠ [] → getlines delim cur l = [cur.reverse ++ l] := by
  induction l with
  | nil =>
    intro cur hne
    have : cur ≠ [] := by simpa using hne
    cases cur with
    | nil => exact absurd rfl this
    | cons a t => simp [getlines]
  | cons c cs ih =>
    intro cur _
    have hc : c ≠ delim := fun e => h (e ▸ List.mem_cons_self _ _)
    have hcs : delim ∉ cs := fun e => h (List.mem_cons_of_mem _ e)
    simp [getlines, hc, ih hcs (c :: cur) (by simp)]

theorem attrsText_cons (kv : String × String) (more : List (String × String)) :
    attrsText (kv :: more) = ',' :: (attrToken kv ++ attrsText more) := by
  simp [attrsText, attrToken]

/-- The tokens of the attribute part of a written line are the attribute texts. -/
theorem getlines_attrs (more : List (String × String))
    (hmore : ∀ kv ∈ more, ',' ∉ attrToken kv) :
    ∀ (t : List Char), ',' ∉ t → t ≠ [] →
      getlines ',' [] (t ++ attrsText more) = t :: more.map attrToken := by
  induction more with
  | nil =>
    intro t ht hne
    simpa [attrsText] using getlines_last ht [] (by simpa using hne)
  | cons kv rest ih =>
    intro t ht _
    rw [attrsText_cons, getlines_append_delim ht]
    have hkv : ',' ∉ attrToken kv := hmore kv (List.mem_cons_self _ _)
    have hne : attrToken kv ≠ [] := by simp [attrToken]
    rw [ih (fun kv2 h2 => hmore kv2 (List.mem_cons_of_mem _ h2)) (attrToken kv) hkv hne]
    simp

theorem setAttr_new {attrs : List (String × String)} {k : String} (v : String)
    (h : k ∉ attrs.map (·.1)) : setAttr attrs k v = attrs ++ [(k, v)] := by
  unfold setAttr
  have : attrs.any (fun kv => decide (kv.1 = k)) = false := by
    rw [List.any_eq_false]
    intro kv hkv
    simp only [decide_eq_true_eq]
    intro e
    exact h (List.mem_map.mpr ⟨kv, hkv, e⟩)
  rw [this]
  rfl

/-- Parsing the attribute texts of a map with unique keys free of `=` rebuilds it. -/
theorem parseAttrs_tokens (kvs : List (String × String)) :
    ∀ acc : List (String × String), ((acc ++ kvs).map (·.1)).Nodup →
      (∀ kv ∈ kvs, '=' ∉ kv.1.data) →
      (kvs.map attrToken).foldl
        (fun attrs token =>
          match splitAtFirst '=' token with
          | none => attrs
          | some (k, v) => setAttr attrs (String.mk k) (String.mk v))
        acc = acc ++ kvs := by
  induction kvs with
  | nil => intro acc _ _; simp
  | cons kv rest ih =>
    intro acc hnd hkeys
    have hk : '=' ∉ kv.1.data := hkeys kv (List.mem_cons_self _ _)
    have hnew : kv.1 ∉ acc.map (·.1) := by
      intro hmem
      rw [List.map_append, List.map_cons] at hnd
      have := (List.nodup_append.mp hnd).2.2
      exact this hmem (List.mem_cons_self _ _)
    simp only [List.map_cons, List.foldl_cons]
    rw [show attrToken kv = kv.1.data ++ '=' :: kv.2.data from rfl, splitAtFirst_append hk]
    simp only
    rw [setAttr_new _ hnew]
    have hnd2 : (((acc ++ [(kv.1, kv.2)]) ++ rest).map (·.1)).Nodup := by
      simpa using hnd
    rw [ih (acc ++ [(kv.1, kv.2)]) hnd2 (fun kv2 h2 => hkeys kv2 (List.mem_cons_of_mem _ h2))]
    simp

theorem not_mem_attrToken {d : Char} {kv : String × String} (hd : d ≠ '=')
    (hk : d ∉ kv.1.data) (hv : d ∉ kv.2.data) : d ∉ attrToken kv := by
  unfold attrToken
  simp only [List.mem_append, List.mem_cons, not_or]
  exact ⟨hk, hd, hv⟩

theorem not_mem_attrsText {d : Char} (hd1 : d ≠ '=') (hd2 : d ≠ ',')
    (attrs : List (String × String)) (h : ∀ kv ∈ attrs, d ∉ kv.1.data ∧ d ∉ kv.2.data) :
    d ∉ attrsText attrs := by
  induction attrs with
  | nil => simp [attrsText]
  | cons kv rest ih =>
    rw [attrsText_cons]
    simp only [List.mem_cons, List.mem_append, not_or]
    have hkv := h kv (List.mem_cons_self _ _)
    exact ⟨hd2, not_mem_attrToken hd1 hkv.1 hkv.2,
      ih (fun kv2 h2 => h kv2 (List.mem_cons_of_mem _ h2))⟩

/-- Loading the line written for a point gives the point back. -/
theorem loadLine_saved {render : ℚ → List Char} {parse : List Char → Option ℚ} (p : Point)
    (hparse : parse (render p.x) = some p.x) (hcomma : ',' ∉ render p.x)
    (hkeys : (p.attrs.map (·.1)).Nodup)
    (hchars : ∀ kv ∈ p.attrs, ',' ∉ kv.1.data ∧ '=' ∉ kv.1.data ∧ ',' ∉ kv.2.data) :
    loadLine parse (render p.x ++ attrsText p.attrs) = .ok p := by
  obtain ⟨x, attrs⟩ := p
  simp only at hparse hcomma hkeys hchars ⊢
  cases attrs with
  | nil =>
    unfold loadLine
    simp only [attrsText, List.flatMap_nil, List.append_nil]
    rw [splitAtFirst_none hcomma]
    simp only [hparse]
  | cons kv more =>
    unfold loadLine
    rw [attrsText_cons, splitAtFirst_append hcomma]
    simp only [hparse]
    have htok : ∀ kv2 ∈ kv :: more, ',' ∉ attrToken kv2 := by
      intro kv2 h2
      have := hchars kv2 h2
      exact not_mem_attrToken (by decide) this.1 this.2.2
    rw [getlines_attrs more (fun kv2 h2 => htok kv2 (List.mem_cons_of_mem _ h2))
      (attrToken kv) (htok kv (List.mem_cons_self _ _)) (by simp [attrToken])]
    have := parseAttrs_tokens (kv :: more) [] (by simpa using hkeys)
      (fun kv2 h2 => (hchars kv2 h2).2.1)
    unfold parseAttrs
    rw [← List.map_cons, this]
    rfl

/-- The lines `loadCSV` reads from what `saveCSV` wrote are the lines written. -/
theorem getlines_saved {render : ℚ → List Char} (pts : List Point)
    (h : ∀ p ∈ pts, '\n' ∉ render p.x ++ attrsText p.attrs) :
    getlines '\n' [] (pts.flatMap (saveLine render))
      = pts.map (fun p => render p.x ++ attrsText p.attrs) := by
  induction pts with
  | nil => rfl
  | cons p rest ih =>
    have hs : saveLine render p ++ rest.flatMap (saveLine render)
        = (render p.x ++ attrsText p.attrs) ++ '\n' :: rest.flatMap (saveLine render) := by
      simp [saveLine]
    rw [List.flatMap_cons, List.map_cons, hs,
      getlines_append_delim (h p (List.mem_cons_self _ _)),
      ih (fun q hq => h q (List.mem_cons_of_mem _ hq))]
    rfl

theorem loadLines_saved {render : ℚ → List Char} {parse : List Char → Option ℚ}
    (pts : List Point)
    (hne : ∀ p ∈ pts, render p.x ≠ [])
    (hline : ∀ p ∈ pts, loadLine parse (render p.x ++ attrsText p.attrs) = .ok p) :
    loadLines parse (pts.map (fun p => render p.x ++ attrsText p.attrs)) = .ok pts := by
  induction pts with
  | nil => rfl
  | cons p rest ih =>
    rw [List.map_cons]
    unfold loadLines
    have hp : (render p.x ++ attrsText p.attrs).isEmpty = false := by
      have := hne p (List.mem_cons_self _ _)
      cases hr : render p.x with
      | nil => exact absurd hr this
      | cons a t => rfl
    rw [hp]
    simp only [Bool.false_eq_true, if_false]
    rw [hline p (List.mem_cons_self _ _),
      ih (fun q hq => hne q (List.mem_cons_of_mem _ hq))
        (fun q hq => hline q (List.mem_cons_of_mem _ hq))]

/-! ## Claim about the CSV round trip -/

/-- C16, counterexample: the point `1` with the attribute key `a=b` and value `c` is written
as the line `1,a=b=c`, which is loaded as the key `a` with the value `b=c`; the
coordinate parses back and the value has no comma or newline. -/
theorem csv_round_trip_fails_key_with_equals :
    parseOne (renderOne 1) = some 1 ∧
    saveCSV renderOne true keyWithEquals = .ok "1,a=b=c\n".data ∧
    loadCSV parseOne (some "1,a=b=c\n".data) = .ok ⟨[⟨1, [("a", "b=c")]⟩]⟩ ∧
    ¬ (("a=b", "c") ∈ [(("a", "b=c") : String × String)]) := by
  refine ⟨rfl, ?_, ?_, by decide⟩
  · rfl
  · rfl

/-- C16, amended: for a point set whose coordinates are rendered as non-empty text
without comma or newline that parses back to the coordinate, whose attribute keys are
unique per point and contain no comma, newline or `=`, and whose attribute values
contain no comma or newline, loading what `saveCSV` wrote gives the same number of
points in the same order, each with the same coordinate and the same set of
attribute key/value pairs. -/
theorem csv_round_trip (render : ℚ → List Char) (parse : List Char → Option ℚ)
    (S : PointSet)
    (hparse : ∀ p ∈ S.pts, parse (render p.x) = some p.x)
    (hrender : ∀ p ∈ S.pts, render p.x ≠ [] ∧ ',' ∉ render p.x ∧ '\n' ∉ render p.x)
    (hkeys : ∀ p ∈ S.pts, (p.attrs.map (·.1)).Nodup)
    (hkeychars : ∀ p ∈ S.pts, ∀ kv ∈ p.attrs,
      ',' ∉ kv.1.data ∧ '\n' ∉ kv.1.data ∧ '=' ∉ kv.1.data)
    (hvalchars : ∀ p ∈ S.pts, ∀ kv ∈ p.attrs, ',' ∉ kv.2.data ∧ '\n' ∉ kv.2.data) :
    ∃ content loaded, saveCSV render true S = .ok content ∧
      loadCSV parse (some content) = .ok loaded ∧
      loaded.pts.length = S.pts.length ∧
      List.Forall₂ (fun q p : Point => q.x = p.x ∧ ∀ kv, kv ∈ q.attrs ↔ kv ∈ p.attrs)
        loaded.pts S.pts := by
  have hload : loadCSV parse (some (S.pts.flatMap (saveLine render))) = .ok S := by
    unfold loadCSV
    simp only
    rw [getlines_saved S.pts ?_, loadLines_saved S.pts (fun p hp => (hrender p hp).1) ?_]
    · intro p hp
      refine loadLine_saved p (hparse p hp) (hrender p hp).2.1 (hkeys p hp) ?_
      intro kv hkv
      exact ⟨(hkeychars p hp kv hkv).1, (hkeychars p hp kv hkv).2.2, (hvalchars p hp kv hkv).1⟩
    · intro p hp
      simp only [List.mem_append, not_or]
      refine ⟨(hrender p hp).2.2, not_mem_attrsText (by decide) (by decide) p.attrs ?_⟩
      intro kv hkv
      exact ⟨(hkeychars p hp kv hkv).2.1, (hvalchars p hp kv hkv).2⟩
  refine ⟨S.pts.flatMap (saveLine render), S, rfl, hload, rfl, ?_⟩
  exact List.forall₂_same.mpr (fun p _ => ⟨rfl, fun _ => Iff.rfl⟩)

/-- Witness for the amended C16: the point `1` with the attribute `label=a`. -/
theorem csv_round_trip_witness :
    (∃ content loaded, saveCSV renderOne true ⟨[⟨1, [("label", "a")]⟩]⟩ = .ok content ∧
      loadCSV parseOne (some content) = .ok loaded ∧
      loaded.pts.length = (⟨[⟨1, [("label", "a")]⟩]⟩ : PointSet).pts.length ∧
      List.Forall₂ (fun q p : Point => q.x = p.x ∧ ∀ kv, kv ∈ q.attrs ↔ kv ∈ p.attrs)
        loaded.pts (⟨[⟨1, [("label", "a")]⟩]⟩ : PointSet).pts) ∧
    saveCSV renderOne true ⟨[⟨1, [("label", "a")]⟩]⟩ = .ok "1,label=a\n".data ∧
    loadCSV parseOne (some "1,label=a\n".data) = .ok ⟨[⟨1, [("label", "a")]⟩]⟩ :=
  ⟨csv_round_trip renderOne parseOne ⟨[⟨1, [("label", "a")]⟩]⟩
    (by intro p hp; simp at hp; subst hp; rfl)
    (by intro p hp; simp at hp; subst hp; simp [renderOne])
    (by intro p hp; simp at hp; subst hp; simp)
    (by
      intro p hp kv hkv
      simp at hp
      subst hp
      simp at hkv
      subst hkv
      decide)
    (by
      intro p hp kv hkv
      simp at hp
      subst hp
      simp at hkv
      subst hkv
      decide), rfl, rfl⟩

/-! ## Facts about rounding -/

theorem roundHalfEven_le_floor_add_one (r : ℚ) : roundHalfEven r ≤ ⌊r⌋ + 1 := by
  unfold roundHalfEven
  split_ifs <;> omega

theorem floor_le_roundHalfEven (r : ℚ) : ⌊r⌋ ≤ roundHalfEven r := by
  unfold roundHalfEven
  split_ifs <;> omega

theorem roundHalfEven_intCast (k : ℤ) : roundHalfEven (k : ℚ) = k := by
  unfold roundHalfEven
  simp

theorem roundHalfEven_mono {r s : ℚ} (h : r ≤ s) : roundHalfEven r ≤ roundHalfEven s := by
  have hf : ⌊r⌋ ≤ ⌊s⌋ := Int.floor_mono h
  rcases hf.lt_or_eq with hlt | heq
  · have h1 := roundHalfEven_le_floor_add_one r
    have h2 := floor_le_roundHalfEven s
    omega
  · unfold roundHalfEven
    rw [heq]
    split_ifs <;> first | omega | (exfalso; linarith)

theorem ulp_pos (a : ℚ) : 0 < ulp a := by
  unfold ulp
  positivity

theorem roundMag_zero : roundMag 0 = 0 := by
  unfold roundMag
  simp [roundHalfEven]

theorem roundMag_nonneg {a : ℚ} (ha : 0 ≤ a) : 0 ≤ roundMag a := by
  unfold roundMag
  have h1 : (0 : ℚ) ≤ a / ulp a := div_nonneg ha (ulp_pos a).le
  have h2 : roundHalfEven ((0 : ℤ) : ℚ) ≤ roundHalfEven (a / ulp a) :=
    roundHalfEven_mono (by simpa using h1)
  rw [roundHalfEven_intCast] at h2
  have h3 : (0 : ℚ) ≤ (roundHalfEven (a / ulp a) : ℚ) := by exact_mod_cast h2
  exact mul_nonneg h3 (ulp_pos a).le

/-- The binade of a magnitude in the normal range. -/
theorem binadeExp_eq {a : ℚ} {e : ℤ} (he : -1022 ≤ e) (hlo : (2 : ℚ) ^ e ≤ a)
    (hhi : a < (2 : ℚ) ^ (e + 1)) : binadeExp a = e := by
  have hpos : 0 < a := lt_of_lt_of_le (by positivity) hlo
  have h1 : e ≤ Int.log 2 a :=
    (Int.zpow_le_iff_le_log (by norm_num) hpos).mp (by exact_mod_cast hlo)
  have h2 : Int.log 2 a < e + 1 :=
    (Int.lt_zpow_iff_log_lt (by norm_num) hpos).mp (by exact_mod_cast hhi)
  unfold binadeExp
  omega

/-- Rounding of a magnitude whose binade is known. -/
theorem roundMag_eq {a : ℚ} {e : ℤ} (he : -1022 ≤ e) (hlo : (2 : ℚ) ^ e ≤ a)
    (hhi : a < (2 : ℚ) ^ (e + 1)) :
    roundMag a = roundHalfEven (a / (2 : ℚ) ^ (e - 52)) * (2 : ℚ) ^ (e - 52) := by
  unfold roundMag ulp
  rw [binadeExp_eq he hlo hhi]

/-- A magnitude is rounded to at most the top of its binade. -/
theorem roundMag_le_top (a : ℚ) : roundMag a ≤ (2 : ℚ) ^ (binadeExp a + 1) := by
  have hlt : a < (2 : ℚ) ^ (Int.log 2 a + 1) := by
    exact_mod_cast Int.lt_zpow_succ_log_self (b := 2) (by norm_num) a
  have hle : (2 : ℚ) ^ (Int.log 2 a + 1) ≤ (2 : ℚ) ^ (binadeExp a + 1) := by
    apply zpow_le_zpow_right₀ (by norm_num)
    unfold binadeExp
    omega
  have hsplit : (2 : ℚ) ^ (binadeExp a + 1) = ((2 ^ 53 : ℤ) : ℚ) * ulp a := by
    unfold ulp
    rw [show binadeExp a + 1 = 53 + (binadeExp a - 52) by ring, zpow_add₀ (by norm_num)]
    norm_num
  have hdiv : a / ulp a ≤ ((2 ^ 53 : ℤ) : ℚ) := by
    rw [div_le_iff₀ (ulp_pos a), ← hsplit]
    exact (lt_of_lt_of_le hlt hle).le
  have h2 := roundHalfEven_mono hdiv
  rw [roundHalfEven_intCast] at h2
  have h3 : (roundHalfEven (a / ulp a) : ℚ) ≤ ((2 ^ 53 : ℤ) : ℚ) := by exact_mod_cast h2
  rw [hsplit]
  unfold roundMag
  exact mul_le_mul_of_nonneg_right h3 (ulp_pos a).le

/-- A normal magnitude is rounded to at least the bottom of its binade. -/
theorem bottom_le_roundMag {a : ℚ} (ha : 0 < a) (hnormal : -1022 < binadeExp a) :
    (2 : ℚ) ^ binadeExp a ≤ roundMag a := by
  have hlog : binadeExp a = Int.log 2 a := by
    unfold binadeExp at hnormal ⊢
    omega
  have hle : (2 : ℚ) ^ binadeExp a ≤ a := by
    rw [hlog]
    exact_mod_cast Int.zpow_log_le_self (b := 2) (by norm_num) ha
  have hsplit : (2 : ℚ) ^ binadeExp a = ((2 ^ 52 : ℤ) : ℚ) * ulp a := by
    unfold ulp
    rw [show binadeExp a = 52 + (binadeExp a - 52) by ring, zpow_add₀ (by norm_num)]
    norm_num
  have hdiv : ((2 ^ 52 : ℤ) : ℚ) ≤ a / ulp a := by
    rw [le_div_iff₀ (ulp_pos a), ← hsplit]
    exact hle
  have h2 := roundHalfEven_mono hdiv
  rw [roundHalfEven_intCast] at h2
  have h3 : ((2 ^ 52 : ℤ) : ℚ) ≤ (roundHalfEven (a / ulp a) : ℚ) := by exact_mod_cast h2
  rw [hsplit]
  unfold roundMag
  exact mul_le_mul_of_nonneg_right h3 (ulp_pos a).le

theorem roundMag_mono {a b : ℚ} (ha : 0 ≤ a) (hab : a ≤ b) : roundMag a ≤ roundMag b := by
  rcases ha.lt_or_eq with hpos | hzero
  · have hbpos : 0 < b := lt_of_lt_of_le hpos hab
    have hexp : binadeExp a ≤ binadeExp b := by
      unfold binadeExp
      have := Int.log_mono_right (b := 2) hpos hab
      omega
    rcases hexp.lt_or_eq with hlt | heq
    · have h1 := roundMag_le_top a
      have h2 := bottom_le_roundMag hbpos (by
        have : -1022 ≤ binadeExp a := by unfold binadeExp; omega
        omega)
      have h3 : (2 : ℚ) ^ (binadeExp a + 1) ≤ (2 : ℚ) ^ binadeExp b :=
        zpow_le_zpow_right₀ (by norm_num) (by omega)
      linarith
    · have hulp : ulp a = ulp b := by unfold ulp; rw [heq]
      unfold roundMag
      rw [hulp]
      have hdiv : a / ulp b ≤ b / ulp b := div_le_div_of_nonneg_right hab (ulp_pos b).le
      have h3 : (roundHalfEven (a / ulp b) : ℚ) ≤ (roundHalfEven (b / ulp b) : ℚ) := by
        exact_mod_cast roundHalfEven_mono hdiv
      exact mul_le_mul_of_nonneg_right h3 (ulp_pos b).le
  · rw [← hzero, roundMag_zero]
    exact roundMag_nonneg (hzero ▸ hab)

/-- The rounding of IEEE 754 binary64 is monotone and leaves zero unchanged. -/
theorem roundDouble_isRounding : IsRounding roundDouble where
  zero := by simp [roundDouble, roundMag_zero]
  mono := by
    intro x y hxy
    unfold roundDouble
    by_cases hx : 0 ≤ x
    · have hy : 0 ≤ y := le_trans hx hxy
      rw [if_pos hx, if_pos hy]
      exact roundMag_mono hx hxy
    · rw [if_neg hx]
      by_cases hy : 0 ≤ y
      · rw [if_pos hy]
        have h1 := roundMag_nonneg (a := -x) (by linarith)
        have h2 := roundMag_nonneg hy
        linarith
      · rw [if_neg hy]
        have := roundMag_mono (a := -y) (b := -x) (by linarith) (by linarith)
        linarith

theorem id_isRounding : IsRounding id where
  zero := rfl
  mono := fun _ _ h => h

theorem IsRounding.nonneg {fl : ℚ → ℚ} (hfl : IsRounding fl) {x : ℚ} (hx : 0 ≤ x) :
    0 ≤ fl x := by
  have := hfl.mono 0 x hx
  rwa [hfl.zero] at this

/-- The rounded difference of `b` and a value `a` at or below it, without the absolute
value. -/
theorem IsRounding.abs_sub {fl : ℚ → ℚ} (hfl : IsRounding fl) {a b : ℚ} (hab : a ≤ b) :
    |fl (b - a)| = fl (b - a) :=
  abs_of_nonneg (hfl.nonneg (sub_nonneg.mpr hab))

/-! ### Values of `roundDouble` used below -/

theorem roundDouble_one : roundDouble 1 = 1 := by
  unfold roundDouble
  rw [if_pos (by norm_num), roundMag_eq (e := 0) (by norm_num) (by norm_num) (by norm_num)]
  norm_num [roundHalfEven]

theorem roundDouble_two : roundDouble 2 = 2 := by
  unfold roundDouble
  rw [if_pos (by norm_num), roundMag_eq (e := 1) (by norm_num) (by norm_num) (by norm_num)]
  norm_num [roundHalfEven]

theorem roundDouble_three : roundDouble 3 = 3 := by
  unfold roundDouble
  rw [if_pos (by norm_num), roundMag_eq (e := 1) (by norm_num) (by norm_num) (by norm_num)]
  norm_num [roundHalfEven]

/-- `2^53 + 1` lies halfway between the doubles `2^53` and `2^53 + 2` and is rounded to
the one with the even significand. -/
theorem roundDouble_two_pow_53_add_one : roundDouble 9007199254740993 = 9007199254740992 := by
  unfold roundDouble
  rw [if_pos (by norm_num), roundMag_eq (e := 53) (by norm_num) (by norm_num) (by norm_num)]
  norm_num [roundHalfEven]

/-- `2^53 + 3` lies halfway between the doubles `2^53 + 2` and `2^53 + 4` and is rounded
to the one with the even significand. -/
theorem roundDouble_two_pow_53_add_three :
    roundDouble 9007199254740995 = 9007199254740996 := by
  unfold roundDouble
  rw [if_pos (by norm_num), roundMag_eq (e := 53) (by norm_num) (by norm_num) (by norm_num)]
  norm_num [roundHalfEven]

theorem roundDouble_two_pow_53_add_five :
    roundDouble 9007199254740997 = 9007199254740996 := by
  unfold roundDouble
  rw [if_pos (by norm_num), roundMag_eq (e := 53) (by norm_num) (by norm_num) (by norm_num)]
  norm_num [roundHalfEven]

/-- An even integer of magnitude between `2^53` and `2^54` is a double. -/
theorem roundDouble_even_53 (k : ℤ) (hlo : 2 ^ 52 ≤ k) (hhi : k < 2 ^ 53) :
    roundDouble ((2 * k : ℤ) : ℚ) = ((2 * k : ℤ) : ℚ) := by
  have hk1 : ((2 : ℚ) ^ (52 : ℕ)) ≤ (k : ℚ) := by exact_mod_cast hlo
  have hk2 : (k : ℚ) < ((2 : ℚ) ^ (53 : ℕ)) := by exact_mod_cast hhi
  unfold roundDouble
  rw [if_pos (by push_cast; linarith [show (0 : ℚ) ≤ 2 ^ (52 : ℕ) by positivity]),
    roundMag_eq (e := 53) (by norm_num) (by push_cast; norm_num at hk1 ⊢; linarith)
      (by push_cast; norm_num at hk2 ⊢; linarith)]
  have : (((2 * k : ℤ) : ℚ)) / (2 : ℚ) ^ ((53 : ℤ) - 52) = ((k : ℤ) : ℚ) := by
    push_cast
    norm_num
  rw [this, roundHalfEven_intCast]
  push_cast
  norm_num
  ring

/-- An integer of magnitude between `2^52` and `2^53` is a double. -/
theorem roundDouble_int_52 (k : ℤ) (hlo : 2 ^ 52 ≤ k) (hhi : k < 2 ^ 53) :
    roundDouble (k : ℚ) = (k : ℚ) := by
  have hk1 : ((2 : ℚ) ^ (52 : ℕ)) ≤ (k : ℚ) := by exact_mod_cast hlo
  have hk2 : (k : ℚ) < ((2 : ℚ) ^ (53 : ℕ)) := by exact_mod_cast hhi
  unfold roundDouble
  rw [if_pos (by linarith [show (0 : ℚ) ≤ 2 ^ (52 : ℕ) by positivity]),
    roundMag_eq (e := 52) (by norm_num) (by norm_num at hk1 ⊢; linarith)
      (by norm_num at hk2 ⊢; linarith)]
  have : (k : ℚ) / (2 : ℚ) ^ ((52 : ℤ) - 52) = ((k : ℤ) : ℚ) := by
    norm_num
  rw [this, roundHalfEven_intCast]
  norm_num

/-! ## The rounded routines and the exact ones -/

theorem keepLoopFl_id (d : ℚ) (l : List Point) :
    ∀ last, keepLoopFl id d last l = keepLoop d last l := by
  induction l with
  | nil => intro last; rfl
  | cons p rest ih =>
    intro last
    simp only [keepLoopFl, keepLoop, id, ih]

theorem filterByMinDistanceFl_id (sortPts : List Point → List Point) (S : PointSet) (d : ℚ) :
    filterByMinDistanceFl id sortPts S d = filterByMinDistance sortPts S d := by
  unfold filterByMinDistanceFl filterByMinDistance
  simp only [keepLoopFl_id]

theorem dedupLoopFl_id (eps : ℚ) (l : List ℚ) :
    ∀ back, dedupLoopFl id eps back l = dedupLoop eps back l := by
  induction l with
  | nil => intro back; rfl
  | cons y rest ih =>
    intro back
    simp only [dedupLoopFl, dedupLoop, id, ih]

theorem dedupCloseFl_id (xs : List ℚ) (eps : ℚ) : dedupCloseFl id xs eps = dedupClose xs eps := by
  unfold dedupCloseFl dedupClose
  simp only [dedupLoopFl_id]

theorem existsNearFl_id (xs : List ℚ) (s : Nat) (t eps : ℚ) :
    existsNearFl id xs s t eps = existsNear xs s t eps := rfl

theorem walkFl_id (xs : List ℚ) (s : Nat) (spacing eps : ℚ) :
    ∀ (fuel : Nat) (nextVal : ℚ) (count : Nat),
      walkFl id xs s spacing eps fuel nextVal count = walk xs s spacing eps fuel nextVal count := by
  intro fuel
  induction fuel with
  | zero => intro nextVal count; rfl
  | succ f ih =>
    intro nextVal count
    simp only [walkFl, walk, existsNearFl_id, id, ih]

theorem scanStartsFl_id (fuel : Nat) (xs : List ℚ) (spacing : ℚ) (minCount : Nat) (eps : ℚ) :
    ∀ idxs, scanStartsFl id fuel xs spacing minCount eps idxs
      = scanStarts fuel xs spacing minCount eps idxs := by
  intro idxs
  induction idxs with
  | nil => rfl
  | cons i more ih =>
    simp only [scanStartsFl, scanStarts, walkFl_id, id, ih]

/-- Over exact arithmetic the detector in double arithmetic is `hasRegularSpacing`. -/
theorem hasRegularSpacingFl_id (fuel : Nat) (input : PointSet) (spacing : ℚ) (minCount : Nat)
    (eps : ℚ) :
    hasRegularSpacingFl id fuel input spacing minCount eps
      = hasRegularSpacing fuel input spacing minCount eps := by
  unfold hasRegularSpacingFl hasRegularSpacing
  simp only [dedupCloseFl_id, scanStartsFl_id]

/-! ## Facts about `keepLoopFl` -/

theorem keepLoopFl_cons_keep {fl : ℚ → ℚ} {d last : ℚ} {p : Point} (rest : List Point)
    (h : d ≤ |fl (p.x - last)|) :
    keepLoopFl fl d last (p :: rest) = p :: keepLoopFl fl d p.x rest := by
  simp [keepLoopFl, h]

theorem keepLoopFl_cons_skip {fl : ℚ → ℚ} {d last : ℚ} {p : Point} (rest : List Point)
    (h : ¬ d ≤ |fl (p.x - last)|) :
    keepLoopFl fl d last (p :: rest) = keepLoopFl fl d last rest := by
  simp [keepLoopFl, h]

theorem keepLoopFl_sublist (fl : ℚ → ℚ) (d : ℚ) (l : List Point) :
    ∀ last, List.Sublist (keepLoopFl fl d last l) l := by
  induction l with
  | nil => intro last; simp [keepLoopFl]
  | cons p rest ih =>
    intro last
    by_cases h : d ≤ |fl (p.x - last)|
    · rw [keepLoopFl_cons_keep rest h]
      exact (ih p.x).cons₂ p
    · rw [keepLoopFl_cons_skip rest h]
      exact (ih last).cons p

/-- The rounded difference of every kept point and the last kept coordinate is at
least `d`. -/
theorem keepLoopFl_gap_from_last {fl : ℚ → ℚ} (hfl : IsRounding fl) (d : ℚ) (l : List Point) :
    ∀ last, (∀ p ∈ l, last ≤ p.x) → List.Pairwise (fun a b : Point => a.x ≤ b.x) l →
      ∀ q ∈ keepLoopFl fl d last l, d ≤ fl (q.x - last) := by
  induction l with
  | nil => intro last _ _ q hq; simp [keepLoopFl] at hq
  | cons p rest ih =>
    intro last hlast hsorted q hq
    have hp : last ≤ p.x := hlast p (List.mem_cons_self _ _)
    rw [List.pairwise_cons] at hsorted
    by_cases h : d ≤ |fl (p.x - last)|
    · rw [keepLoopFl_cons_keep rest h, List.mem_cons] at hq
      rw [hfl.abs_sub hp] at h
      rcases hq with rfl | hq
      · exact h
      · have h1 := ih p.x hsorted.1 hsorted.2 q hq
        have h2 := hfl.mono (q.x - p.x) (q.x - last) (by linarith)
        linarith
    · rw [keepLoopFl_cons_skip rest h] at hq
      exact ih last (fun r hr => hlast r (List.mem_cons_of_mem _ hr)) hsorted.2 q hq

/-- The rounded difference of any two kept points, the later minus the earlier, is at
least `d`. -/
theorem keepLoopFl_pairwise {fl : ℚ → ℚ} (hfl : IsRounding fl) (d : ℚ) (l : List Point) :
    ∀ last, (∀ p ∈ l, last ≤ p.x) → List.Pairwise (fun a b : Point => a.x ≤ b.x) l →
      List.Pairwise (fun a b : Point => d ≤ fl (b.x - a.x)) (keepLoopFl fl d last l) := by
  induction l with
  | nil => intro last _ _; simp [keepLoopFl]
  | cons p rest ih =>
    intro last hlast hsorted
    rw [List.pairwise_cons] at hsorted
    by_cases h : d ≤ |fl (p.x - last)|
    · rw [keepLoopFl_cons_keep rest h, List.pairwise_cons]
      exact ⟨fun q hq => keepLoopFl_gap_from_last hfl d rest p.x hsorted.1 hsorted.2 q hq,
        ih p.x hsorted.1 hsorted.2⟩
    · rw [keepLoopFl_cons_skip rest h]
      exact ih last (fun r hr => hlast r (List.mem_cons_of_mem _ hr)) hsorted.2

/-- Greedy stays ahead in double arithmetic: a selection from an ascending list whose
members are pairwise at least `d` apart, and at least `d` above a coordinate that is
not below the last kept one, has at most as many members as the scan keeps, when `d`
is a double. -/
theorem keepLoopFl_length_optimal {fl : ℚ → ℚ} (hfl : IsRounding fl) {d : ℚ} (hrep : fl d = d)
    (l : List Point) :
    List.Pairwise (fun a b : Point => a.x ≤ b.x) l →
      ∀ (last last2 : ℚ) (T : List Point), last ≤ last2 → (∀ p ∈ l, last ≤ p.x) →
        List.Sublist T l → List.Pairwise (fun a b : Point => d ≤ b.x - a.x) T →
        (∀ t ∈ T, d ≤ t.x - last2) → T.length ≤ (keepLoopFl fl d last l).length := by
  induction l with
  | nil =>
    intro _ last last2 T _ _ hsub _ _
    rw [List.sublist_nil.mp hsub]
    exact Nat.zero_le _
  | cons y rest ih =>
    intro hsorted last last2 T hle hlast hsub hpair hcompat
    rw [List.pairwise_cons] at hsorted
    have hy : last ≤ y.x := hlast y (List.mem_cons_self _ _)
    have hrestlast : ∀ p ∈ rest, last ≤ p.x := fun p hp => hlast p (List.mem_cons_of_mem _ hp)
    by_cases h : d ≤ |fl (y.x - last)|
    · rw [keepLoopFl_cons_keep rest h]
      simp only [List.length_cons]
      cases T with
      | nil => exact Nat.zero_le _
      | cons t0 T2 =>
        rw [List.pairwise_cons] at hpair
        simp only [List.length_cons]
        apply Nat.succ_le_succ
        have hT2 : List.Sublist T2 rest := by
          rcases List.sublist_cons_iff.mp hsub with h1 | ⟨r, hr, hr2⟩
          · exact (List.sublist_cons_self t0 T2).trans h1
          · have := List.cons.inj hr
            rw [this.2]
            exact hr2
        have ht0 : y.x ≤ t0.x := by
          rcases List.sublist_cons_iff.mp hsub with h1 | ⟨r, hr, _⟩
          · exact hsorted.1 t0 (h1.subset (List.mem_cons_self _ _))
          · have := List.cons.inj hr
            rw [this.1]
        exact ih hsorted.2 y.x t0.x T2 ht0 hsorted.1 hT2 hpair.2
          (fun t ht => hpair.1 t ht)
    · rw [keepLoopFl_cons_skip rest h]
      rw [hfl.abs_sub hy] at h
      have hTrest : List.Sublist T rest := by
        rcases List.sublist_cons_iff.mp hsub with h1 | ⟨r, hr, _⟩
        · exact h1
        · exfalso
          have h1 := hcompat y (by rw [hr]; exact List.mem_cons_self _ _)
          have h2 := hfl.mono d (y.x - last) (by linarith)
          rw [hrep] at h2
          exact h h2
      exact ih hsorted.2 last last2 T hle hrestlast hTrest hpair hcompat

/-- Unfolding of `filterByMinDistanceFl` for a valid distance. -/
theorem filterByMinDistanceFl_eq (fl : ℚ → ℚ) {sortPts : List Point → List Point}
    (hs : IsSortByX sortPts) (S : PointSet) {d : ℚ} (hd : 0 ≤ d) :
    filterByMinDistanceFl fl sortPts S d = .ok ⟨filteredPtsFl fl sortPts S d⟩ := by
  unfold filterByMinDistanceFl filteredPtsFl
  rw [if_neg (not_lt.mpr hd)]
  by_cases he : S.pts = []
  · rw [(hs.eq_nil_iff S.pts).mpr he]
    simp [he]
  · have hne : S.pts.isEmpty = false := by
      cases hS : S.pts with
      | nil => exact absurd hS he
      | cons a t => rfl
    rw [hne]
    cases sortPts S.pts <;> simp

theorem filteredPtsFl_sublist (fl : ℚ → ℚ) (sortPts : List Point → List Point) (S : PointSet)
    (d : ℚ) : List.Sublist (filteredPtsFl fl sortPts S d) (sortPts S.pts) := by
  unfold filteredPtsFl
  cases sortPts S.pts with
  | nil => simp
  | cons v0 rest => exact (keepLoopFl_sublist fl d rest v0.x).cons₂ v0

theorem filteredPtsFl_pairwise {fl : ℚ → ℚ} (hfl : IsRounding fl)
    {sortPts : List Point → List Point} (hs : IsSortByX sortPts) (S : PointSet) (d : ℚ) :
    List.Pairwise (fun a b : Point => d ≤ fl (b.x - a.x)) (filteredPtsFl fl sortPts S d) := by
  unfold filteredPtsFl
  have hasc := hs.ascending S.pts
  cases hv : sortPts S.pts with
  | nil => simp
  | cons v0 rest =>
    rw [hv, List.pairwise_cons] at hasc
    simp only [List.pairwise_cons]
    exact ⟨fun q hq => keepLoopFl_gap_from_last hfl d rest v0.x hasc.1 hasc.2 q hq,
      keepLoopFl_pairwise hfl d rest v0.x hasc.1 hasc.2⟩

theorem filteredPtsFl_length_optimal {fl : ℚ → ℚ} (hfl : IsRounding fl)
    {sortPts : List Point → List Point} (hs : IsSortByX sortPts) (S : PointSet) {d : ℚ}
    (hrep : fl d = d) (T : List Point) (hsub : List.Sublist T (sortPts S.pts))
    (hpair : List.Pairwise (fun a b : Point => d ≤ b.x - a.x) T) :
    T.length ≤ (filteredPtsFl fl sortPts S d).length := by
  unfold filteredPtsFl
  have hasc := hs.ascending S.pts
  cases hv : sortPts S.pts with
  | nil =>
    rw [hv] at hsub
    simp [List.sublist_nil.mp hsub]
  | cons v0 rest =>
    rw [hv] at hsub
    rw [hv, List.pairwise_cons] at hasc
    simp only [List.length_cons]
    cases T with
    | nil => exact Nat.zero_le _
    | cons t0 T2 =>
      rw [List.pairwise_cons] at hpair
      simp only [List.length_cons]
      apply Nat.succ_le_succ
      have hT2 : List.Sublist T2 rest := by
        rcases List.sublist_cons_iff.mp hsub with h1 | ⟨r, hr, hr2⟩
        · exact (List.sublist_cons_self t0 T2).trans h1
        · have := List.cons.inj hr
          rw [this.2]
          exact hr2
      have ht0 : v0.x ≤ t0.x := by
        rcases List.sublist_cons_iff.mp hsub with h1 | ⟨r, hr, _⟩
        · exact hasc.1 t0 (h1.subset (List.mem_cons_self _ _))
        · have := List.cons.inj hr
          rw [this.1]
      exact keepLoopFl_length_optimal hfl hrep rest hasc.2 v0.x t0.x T2 ht0 hasc.1 hT2 hpair.2
        (fun t ht => hpair.1 t ht)

/-! ## Facts about `dedupLoopFl` -/

theorem dedupLoopFl_cons_keep {fl : ℚ → ℚ} {eps back y : ℚ} (rest : List ℚ)
    (h : eps < |fl (y - back)|) :
    dedupLoopFl fl eps back (y :: rest) = y :: dedupLoopFl fl eps y rest := by
  simp [dedupLoopFl, h]

theorem dedupLoopFl_cons_skip {fl : ℚ → ℚ} {eps back y : ℚ} (rest : List ℚ)
    (h : ¬ eps < |fl (y - back)|) :
    dedupLoopFl fl eps back (y :: rest) = dedupLoopFl fl eps back rest := by
  simp [dedupLoopFl, h]

theorem dedupLoopFl_sublist (fl : ℚ → ℚ) (eps : ℚ) (l : List ℚ) :
    ∀ back, List.Sublist (dedupLoopFl fl eps back l) l := by
  induction l with
  | nil => intro back; simp [dedupLoopFl]
  | cons y rest ih =>
    intro back
    by_cases h : eps < |fl (y - back)|
    · rw [dedupLoopFl_cons_keep rest h]
      exact (ih y).cons₂ y
    · rw [dedupLoopFl_cons_skip rest h]
      exact (ih back).cons y

theorem dedupLoopFl_gap_from_back {fl : ℚ → ℚ} (hfl : IsRounding fl) (eps : ℚ) (l : List ℚ) :
    ∀ back, (∀ y ∈ l, back ≤ y) → List.Pairwise (· ≤ ·) l →
      ∀ q ∈ dedupLoopFl fl eps back l, eps < fl (q - back) := by
  induction l with
  | nil => intro back _ _ q hq; simp [dedupLoopFl] at hq
  | cons y rest ih =>
    intro back hback hsorted q hq
    have hy : back ≤ y := hback y (List.mem_cons_self _ _)
    rw [List.pairwise_cons] at hsorted
    by_cases h : eps < |fl (y - back)|
    · rw [dedupLoopFl_cons_keep rest h, List.mem_cons] at hq
      rw [hfl.abs_sub hy] at h
      rcases hq with rfl | hq
      · exact h
      · have h1 := ih y hsorted.1 hsorted.2 q hq
        have h2 := hfl.mono (q - y) (q - back) (by linarith)
        linarith
    · rw [dedupLoopFl_cons_skip rest h] at hq
      exact ih back (fun r hr => hback r (List.mem_cons_of_mem _ hr)) hsorted.2 q hq

theorem dedupLoopFl_pairwise {fl : ℚ → ℚ} (hfl : IsRounding fl) (eps : ℚ) (l : List ℚ) :
    ∀ back, (∀ y ∈ l, back ≤ y) → List.Pairwise (· ≤ ·) l →
      List.Pairwise (fun a b : ℚ => eps < fl (b - a)) (dedupLoopFl fl eps back l) := by
  induction l with
  | nil => intro back _ _; simp [dedupLoopFl]
  | cons y rest ih =>
    intro back hback hsorted
    rw [List.pairwise_cons] at hsorted
    by_cases h : eps < |fl (y - back)|
    · rw [dedupLoopFl_cons_keep rest h, List.pairwise_cons]
      exact ⟨fun q hq => dedupLoopFl_gap_from_back hfl eps rest y hsorted.1 hsorted.2 q hq,
        ih y hsorted.1 hsorted.2⟩
    · rw [dedupLoopFl_cons_skip rest h]
      exact ih back (fun r hr => hback r (List.mem_cons_of_mem _ hr)) hsorted.2

/-- Every scanned value has a kept value at or below it whose rounded difference from it
is at most `eps`: the last kept value or one kept by the scan. -/
theorem dedupLoopFl_cover {fl : ℚ → ℚ} (hfl : IsRounding fl) {eps : ℚ} (heps : 0 ≤ eps)
    (l : List ℚ) :
    ∀ back, (∀ y ∈ l, back ≤ y) → List.Pairwise (· ≤ ·) l →
      ∀ v ∈ l, ∃ r ∈ back :: dedupLoopFl fl eps back l, r ≤ v ∧ |fl (v - r)| ≤ eps := by
  induction l with
  | nil => intro back _ _ v hv; simp at hv
  | cons y rest ih =>
    intro back hback hsorted v hv
    rw [List.pairwise_cons] at hsorted
    by_cases h : eps < |fl (y - back)|
    · rw [dedupLoopFl_cons_keep rest h]
      rcases List.mem_cons.mp hv with rfl | hv
      · exact ⟨v, by simp, le_rfl, by simpa [hfl.zero] using heps⟩
      · obtain ⟨r, hr, hrv⟩ := ih y hsorted.1 hsorted.2 v hv
        exact ⟨r, List.mem_cons_of_mem _ hr, hrv⟩
    · rw [dedupLoopFl_cons_skip rest h]
      rcases List.mem_cons.mp hv with rfl | hv
      · exact ⟨back, by simp, hback v (List.mem_cons_self _ _), not_lt.mp h⟩
      · exact ih back (fun r hr => hback r (List.mem_cons_of_mem _ hr)) hsorted.2 v hv

theorem dedupCloseFl_eq (fl : ℚ → ℚ) (xs : List ℚ) (eps : ℚ) :
    dedupCloseFl fl xs eps =
      match sortAsc xs with
      | [] => []
      | x0 :: rest => x0 :: dedupLoopFl fl eps x0 rest := by
  unfold dedupCloseFl
  cases xs with
  | nil => simp [sortAsc]
  | cons a t => simp

theorem dedupCloseFl_sublist (fl : ℚ → ℚ) (xs : List ℚ) (eps : ℚ) :
    List.Sublist (dedupCloseFl fl xs eps) (sortAsc xs) := by
  rw [dedupCloseFl_eq]
  cases sortAsc xs with
  | nil => simp
  | cons x0 rest => exact (dedupLoopFl_sublist fl eps rest x0).cons₂ x0

theorem dedupCloseFl_mem_input {fl : ℚ → ℚ} {xs : List ℚ} {eps r : ℚ}
    (hr : r ∈ dedupCloseFl fl xs eps) : r ∈ xs :=
  mem_sortAsc.mp ((dedupCloseFl_sublist fl xs eps).subset hr)

theorem dedupCloseFl_sorted (fl : ℚ → ℚ) (xs : List ℚ) (eps : ℚ) :
    List.Pairwise (· ≤ ·) (dedupCloseFl fl xs eps) :=
  List.Pairwise.sublist (dedupCloseFl_sublist fl xs eps) (sortAsc_sorted xs)

/-- The rounded difference of any two returned values, the later minus the earlier,
exceeds `eps`. -/
theorem dedupCloseFl_pairwise {fl : ℚ → ℚ} (hfl : IsRounding fl) (xs : List ℚ) (eps : ℚ) :
    List.Pairwise (fun a b : ℚ => eps < fl (b - a)) (dedupCloseFl fl xs eps) := by
  rw [dedupCloseFl_eq]
  have hsorted := sortAsc_sorted xs
  cases hv : sortAsc xs with
  | nil => simp
  | cons x0 rest =>
    rw [hv, List.pairwise_cons] at hsorted
    simp only [List.pairwise_cons]
    exact ⟨fun q hq => dedupLoopFl_gap_from_back hfl eps rest x0 hsorted.1 hsorted.2 q hq,
      dedupLoopFl_pairwise hfl eps rest x0 hsorted.1 hsorted.2⟩

theorem dedupCloseFl_cover {fl : ℚ → ℚ} (hfl : IsRounding fl) (xs : List ℚ) {eps : ℚ}
    (heps : 0 ≤ eps) {v : ℚ} (hv : v ∈ xs) :
    ∃ r ∈ dedupCloseFl fl xs eps, r ≤ v ∧ |fl (v - r)| ≤ eps := by
  rw [dedupCloseFl_eq]
  have hsorted := sortAsc_sorted xs
  have hmem := mem_sortAsc.mpr hv
  cases hs : sortAsc xs with
  | nil => rw [hs] at hmem; simp at hmem
  | cons x0 rest =>
    rw [hs] at hmem
    rw [hs, List.pairwise_cons] at hsorted
    rcases List.mem_cons.mp hmem with rfl | hrest
    · exact ⟨v, by simp, le_rfl, by simpa [hfl.zero] using heps⟩
    · exact dedupLoopFl_cover hfl heps rest x0 hsorted.1 hsorted.2 v hrest

/-! ## More values of `roundDouble` -/

theorem roundDouble_neg (x : ℚ) : roundDouble (-x) = -roundDouble x := by
  unfold roundDouble
  rcases lt_trichotomy x 0 with h | h | h
  · rw [if_pos (by linarith), if_neg (by linarith), neg_neg]
  · subst h
    simp [roundMag_zero]
  · rw [if_neg (by linarith), if_pos (by linarith), neg_neg]

theorem roundDouble_neg_one : roundDouble (-1) = -1 := by
  rw [roundDouble_neg, roundDouble_one]

theorem roundDouble_neg_three : roundDouble (-3) = -3 := by
  rw [roundDouble_neg, roundDouble_three]

theorem roundDouble_two_pow_53 : roundDouble 9007199254740992 = 9007199254740992 := by
  unfold roundDouble
  rw [if_pos (by norm_num), roundMag_eq (e := 53) (by norm_num) (by norm_num) (by norm_num)]
  norm_num [roundHalfEven]

theorem roundDouble_neg_two_pow_53 : roundDouble (-9007199254740992) = -9007199254740992 := by
  rw [roundDouble_neg, roundDouble_two_pow_53]

theorem roundDouble_two_pow_53_add_four : roundDouble 9007199254740996 = 9007199254740996 := by
  unfold roundDouble
  rw [if_pos (by norm_num), roundMag_eq (e := 53) (by norm_num) (by norm_num) (by norm_num)]
  norm_num [roundHalfEven]

/-- C1, counterexample: the coordinates `-2^53` and `3` and the distance `2^53 + 4` are
doubles; the difference `3 - (-2^53) = 2^53 + 3` rounds to `2^53 + 4`, so for every
conforming sort the filter in double arithmetic keeps both points, and the adjacent
output points are less than `minDist` apart. -/
theorem filterByMinDistanceFl_adjacent_closer_than_minDist :
    roundDouble (-9007199254740992) = -9007199254740992 ∧ roundDouble 3 = 3 ∧
    roundDouble 9007199254740996 = 9007199254740996 ∧
    ∀ sortPts : List Point → List Point, IsSortByX sortPts →
      filterByMinDistanceFl roundDouble sortPts ⟨[⟨-9007199254740992, []⟩, ⟨3, []⟩]⟩
          9007199254740996 = .ok ⟨[⟨-9007199254740992, []⟩, ⟨3, []⟩]⟩ ∧
      ¬ List.Chain' (fun a b : Point => |b.x - a.x| ≥ 9007199254740996)
          [⟨-9007199254740992, []⟩, ⟨3, []⟩] := by
  refine ⟨roundDouble_neg_two_pow_53, roundDouble_three, roundDouble_two_pow_53_add_four, ?_⟩
  intro sortPts hs
  have hfix : sortPts [⟨-9007199254740992, []⟩, ⟨3, []⟩]
      = [⟨-9007199254740992, []⟩, ⟨3, []⟩] :=
    hs.fixes_strict (by norm_num)
  constructor
  · norm_num [filterByMinDistanceFl, hfix, keepLoopFl, roundDouble_two_pow_53_add_three]
  · norm_num [abs_lt]

/-- C1, amended: for a sort routine meeting the contract of `std::sort`, a monotone
rounding and `minDist >= 0`, the filter returns a point set that is ascending by
coordinate, in which the difference of adjacent points, and of the points at any two
distinct positions, as computed (later minus earlier, rounded) is at least `minDist`;
where that subtraction is exact the points are at least `minDist` apart. -/
theorem filterByMinDistanceFl_sorted_separated (fl : ℚ → ℚ) (hfl : IsRounding fl)
    (sortPts : List Point → List Point) (hs : IsSortByX sortPts) (S : PointSet)
    (minDist : ℚ) (hd : 0 ≤ minDist) :
    ∃ out, filterByMinDistanceFl fl sortPts S minDist = .ok out ∧
      List.Pairwise (fun a b : Point => a.x ≤ b.x) out.pts ∧
      List.Chain' (fun a b : Point => |fl (b.x - a.x)| ≥ minDist) out.pts ∧
      List.Pairwise (fun a b : Point => |fl (b.x - a.x)| ≥ minDist) out.pts ∧
      List.Pairwise (fun a b : Point => fl (b.x - a.x) = b.x - a.x → |b.x - a.x| ≥ minDist)
        out.pts := by
  have hp := filteredPtsFl_pairwise hfl hs S minDist
  have habs : List.Pairwise (fun a b : Point => |fl (b.x - a.x)| ≥ minDist)
      (filteredPtsFl fl sortPts S minDist) := by
    refine List.Pairwise.imp ?_ hp
    intro a b h
    exact le_trans h (le_abs_self _)
  refine ⟨⟨filteredPtsFl fl sortPts S minDist⟩, filterByMinDistanceFl_eq fl hs S hd, ?_, ?_,
    habs, ?_⟩
  · exact List.Pairwise.sublist (filteredPtsFl_sublist fl sortPts S minDist) (hs.ascending S.pts)
  · exact List.Pairwise.chain' habs
  · refine List.Pairwise.imp ?_ habs
    intro a b h hex
    rw [hex] at h
    exact h

/-- Witness for the amended C1 in double arithmetic on the points 0, 1, 3 with
`minDist = 2`: the filter returns the points 0 and 3. -/
theorem filterByMinDistanceFl_sorted_separated_witness :
    IsRounding roundDouble ∧ IsSortByX sortByX ∧ (0 : ℚ) ≤ 2 ∧
    (∃ out, filterByMinDistanceFl roundDouble sortByX ⟨[⟨3, []⟩, ⟨0, []⟩, ⟨1, []⟩]⟩ 2 = .ok out ∧
      List.Pairwise (fun a b : Point => a.x ≤ b.x) out.pts ∧
      List.Chain' (fun a b : Point => |roundDouble (b.x - a.x)| ≥ 2) out.pts ∧
      List.Pairwise (fun a b : Point => |roundDouble (b.x - a.x)| ≥ 2) out.pts ∧
      List.Pairwise (fun a b : Point => roundDouble (b.x - a.x) = b.x - a.x → |b.x - a.x| ≥ 2)
        out.pts) ∧
    filterByMinDistanceFl roundDouble sortByX ⟨[⟨3, []⟩, ⟨0, []⟩, ⟨1, []⟩]⟩ 2
      = .ok ⟨[⟨0, []⟩, ⟨3, []⟩]⟩ :=
  ⟨roundDouble_isRounding, sortByX_isSort, by norm_num,
    filterByMinDistanceFl_sorted_separated roundDouble roundDouble_isRounding sortByX
      sortByX_isSort ⟨[⟨3, []⟩, ⟨0, []⟩, ⟨1, []⟩]⟩ 2 (by norm_num),
    by norm_num [filterByMinDistanceFl, sortByX, leX, keepLoopFl, roundDouble_one,
      roundDouble_three]⟩

/-- C17, counterexample: the coordinates `-3` and `2^53` and the distance `2^53 + 4` are
doubles; for every conforming sort the filter in double arithmetic returns both points,
which are `2^53 + 3` apart: the output is not a selection whose coordinates are pairwise
at least `minDist` apart. -/
theorem filterByMinDistanceFl_output_not_separated :
    roundDouble (-3) = -3 ∧ roundDouble 9007199254740992 = 9007199254740992 ∧
    roundDouble 9007199254740996 = 9007199254740996 ∧
    ∀ sortPts : List Point → List Point, IsSortByX sortPts →
      filterByMinDistanceFl roundDouble sortPts ⟨[⟨-3, []⟩, ⟨9007199254740992, []⟩]⟩
          9007199254740996 = .ok ⟨[⟨-3, []⟩, ⟨9007199254740992, []⟩]⟩ ∧
      ¬ List.Pairwise (fun a b : Point => |a.x - b.x| ≥ 9007199254740996)
          [⟨-3, []⟩, ⟨9007199254740992, []⟩] := by
  refine ⟨roundDouble_neg_three, roundDouble_two_pow_53, roundDouble_two_pow_53_add_four, ?_⟩
  intro sortPts hs
  have hfix : sortPts [⟨-3, []⟩, ⟨9007199254740992, []⟩]
      = [⟨-3, []⟩, ⟨9007199254740992, []⟩] :=
    hs.fixes_strict (by norm_num)
  constructor
  · norm_num [filterByMinDistanceFl, hfix, keepLoopFl, roundDouble_two_pow_53_add_three]
  · norm_num [abs_lt]

/-- C17, amended: for a sort routine meeting the contract of `std::sort`, a monotone
rounding and a double `minDist >= 0`, the output of the filter is a sub-collection of
the input in which the difference of any two points as computed (later minus earlier,
rounded) is at least `minDist`, and no sub-collection of the input whose
coordinates are pairwise at least `minDist` apart has more points than the output. -/
theorem filterByMinDistanceFl_optimal (fl : ℚ → ℚ) (hfl : IsRounding fl)
    (sortPts : List Point → List Point) (hs : IsSortByX sortPts) (S : PointSet)
    (minDist : ℚ) (hd : 0 ≤ minDist) (hrep : fl minDist = minDist) :
    ∃ out, filterByMinDistanceFl fl sortPts S minDist = .ok out ∧
      List.Subperm out.pts S.pts ∧
      List.Pairwise (fun a b : Point => a.x ≤ b.x ∧ fl (b.x - a.x) ≥ minDist) out.pts ∧
      ∀ T : List Point, List.Subperm T S.pts →
        List.Pairwise (fun a b : Point => |a.x - b.x| ≥ minDist) T →
        T.length ≤ out.pts.length := by
  refine ⟨⟨filteredPtsFl fl sortPts S minDist⟩, filterByMinDistanceFl_eq fl hs S hd, ?_, ?_, ?_⟩
  · exact (filteredPtsFl_sublist fl sortPts S minDist).subperm.trans (hs.perm S.pts).subperm
  · exact List.Pairwise.and
      (List.Pairwise.sublist (filteredPtsFl_sublist fl sortPts S minDist) (hs.ascending S.pts))
      (filteredPtsFl_pairwise hfl hs S minDist)
  · intro T hT hpair
    show T.length ≤ (filteredPtsFl fl sortPts S minDist).length
    have hT2 : List.Subperm T (sortPts S.pts) := hT.trans (hs.perm S.pts).symm.subperm
    obtain ⟨T2, hperm, hsub⟩ := hT2
    have hsymm : ∀ {a b : Point}, |a.x - b.x| ≥ minDist → |b.x - a.x| ≥ minDist := by
      intro a b h
      rw [abs_sub_comm]
      exact h
    have hpair2 : List.Pairwise (fun a b : Point => |a.x - b.x| ≥ minDist) T2 :=
      (hperm.pairwise_iff hsymm).mpr hpair
    have hasc2 : List.Pairwise (fun a b : Point => a.x ≤ b.x) T2 :=
      List.Pairwise.sublist hsub (hs.ascending S.pts)
    have hpair3 : List.Pairwise (fun a b : Point => minDist ≤ b.x - a.x) T2 := by
      refine List.Pairwise.imp ?_ (List.Pairwise.and hpair2 hasc2)
      intro a b h
      have h1 := h.1
      rw [abs_sub_comm, abs_of_nonneg (sub_nonneg.mpr h.2)] at h1
      exact h1
    rw [← hperm.length_eq]
    exact filteredPtsFl_length_optimal hfl hs S hrep T2 hsub hpair3

/-- Witness for the amended C17 in double arithmetic on the points 0, 1, 3 with
`minDist = 2`. -/
theorem filterByMinDistanceFl_optimal_witness :
    IsRounding roundDouble ∧ IsSortByX sortByX ∧ (0 : ℚ) ≤ 2 ∧ roundDouble 2 = 2 ∧
    ∃ out, filterByMinDistanceFl roundDouble sortByX ⟨[⟨0, []⟩, ⟨1, []⟩, ⟨3, []⟩]⟩ 2 = .ok out ∧
      List.Subperm out.pts (⟨[⟨0, []⟩, ⟨1, []⟩, ⟨3, []⟩]⟩ : PointSet).pts ∧
      List.Pairwise (fun a b : Point => a.x ≤ b.x ∧ roundDouble (b.x - a.x) ≥ 2) out.pts ∧
      ∀ T : List Point, List.Subperm T (⟨[⟨0, []⟩, ⟨1, []⟩, ⟨3, []⟩]⟩ : PointSet).pts →
        List.Pairwise (fun a b : Point => |a.x - b.x| ≥ 2) T →
        T.length ≤ out.pts.length :=
  ⟨roundDouble_isRounding, sortByX_isSort, by norm_num, roundDouble_two,
    filterByMinDistanceFl_optimal roundDouble roundDouble_isRounding sortByX sortByX_isSort
      ⟨[⟨0, []⟩, ⟨1, []⟩, ⟨3, []⟩]⟩ 2 (by norm_num) roundDouble_two⟩

/-! ## Claims about `dedupClose` in double arithmetic -/

/-- C7, counterexample: the values `-2^53` and `1` and the tolerance `2^53` are doubles;
the difference `1 - (-2^53) = 2^53 + 1` rounds to `2^53`, so `dedupClose` in double
arithmetic returns `-2^53` alone, and the input value `1` has no returned value `r`
with `1 - r <= eps`. -/
theorem dedupCloseFl_representative_farther_than_eps :
    roundDouble (-9007199254740992) = -9007199254740992 ∧ roundDouble 1 = 1 ∧
    roundDouble 9007199254740992 = 9007199254740992 ∧
    dedupCloseFl roundDouble [1, -9007199254740992] 9007199254740992 = [-9007199254740992] ∧
    (1 : ℚ) ∈ ([1, -9007199254740992] : List ℚ) ∧
    ¬ ∃ r ∈ dedupCloseFl roundDouble [1, -9007199254740992] 9007199254740992,
      r ≤ 1 ∧ 1 - r ≤ 9007199254740992 := by
  have hout : dedupCloseFl roundDouble [1, -9007199254740992] 9007199254740992
      = [-9007199254740992] := by
    norm_num [dedupCloseFl, sortAsc, dedupLoopFl, roundDouble_two_pow_53_add_one]
  refine ⟨roundDouble_neg_two_pow_53, roundDouble_one, roundDouble_two_pow_53, hout,
    by simp, ?_⟩
  rw [hout]
  norm_num

/-- C7, amended: for a monotone rounding and `eps >= 0` every returned value is an input
value, every input value `v` has a returned value `r` with `r <= v` whose difference
`v - r` as computed (rounded) is at most `eps`, so that `v - r <= eps` where the
subtraction is exact, and a smallest input value is always returned. -/
theorem dedupCloseFl_representatives (fl : ℚ → ℚ) (hfl : IsRounding fl) (xs : List ℚ)
    (eps : ℚ) (heps : 0 ≤ eps) :
    (∀ r ∈ dedupCloseFl fl xs eps, r ∈ xs) ∧
    (∀ v ∈ xs, ∃ r ∈ dedupCloseFl fl xs eps,
      r ≤ v ∧ |fl (v - r)| ≤ eps ∧ (fl (v - r) = v - r → v - r ≤ eps)) ∧
    (∀ m ∈ xs, (∀ v ∈ xs, m ≤ v) → m ∈ dedupCloseFl fl xs eps) := by
  refine ⟨fun r hr => dedupCloseFl_mem_input hr, ?_, ?_⟩
  · intro v hv
    obtain ⟨r, hr, hrv, hclose⟩ := dedupCloseFl_cover hfl xs heps hv
    refine ⟨r, hr, hrv, hclose, ?_⟩
    intro hex
    rw [hex] at hclose
    exact le_trans (le_abs_self _) hclose
  · intro m hm hmin
    obtain ⟨r, hr, hrm, _⟩ := dedupCloseFl_cover hfl xs heps hm
    have : r = m := le_antisymm hrm (hmin r (dedupCloseFl_mem_input hr))
    exact this ▸ hr

/-- Witness for the amended C7 in double arithmetic on `[3, 1, 2, 5]` with `eps = 1`:
the returned values are 1, 3 and 5. -/
theorem dedupCloseFl_representatives_witness :
    IsRounding roundDouble ∧ (0 : ℚ) ≤ 1 ∧
    ((∀ r ∈ dedupCloseFl roundDouble [3, 1, 2, 5] 1, r ∈ ([3, 1, 2, 5] : List ℚ)) ∧
    (∀ v ∈ ([3, 1, 2, 5] : List ℚ), ∃ r ∈ dedupCloseFl roundDouble [3, 1, 2, 5] 1,
      r ≤ v ∧ |roundDouble (v - r)| ≤ 1 ∧ (roundDouble (v - r) = v - r → v - r ≤ 1)) ∧
    (∀ m ∈ ([3, 1, 2, 5] : List ℚ), (∀ v ∈ ([3, 1, 2, 5] : List ℚ), m ≤ v) →
      m ∈ dedupCloseFl roundDouble [3, 1, 2, 5] 1)) ∧
    dedupCloseFl roundDouble [3, 1, 2, 5] 1 = [1, 3, 5] :=
  ⟨roundDouble_isRounding, by norm_num,
    dedupCloseFl_representatives roundDouble roundDouble_isRounding [3, 1, 2, 5] 1
      (by norm_num),
    by norm_num [dedupCloseFl, sortAsc, dedupLoopFl, roundDouble_one, roundDouble_two]⟩

/-- C8, counterexample: `dedupClose([0, 1, 2], 1)` returns `[0, 2]`, over exact
arithmetic and in double arithmetic alike, and the input value `1` is within `eps = 1`
of both returned values, also as computed. -/
theorem dedupClose_two_representatives :
    dedupClose [0, 1, 2] 1 = [0, 2] ∧ (1 : ℚ) ∈ ([0, 1, 2] : List ℚ) ∧
      |(1 : ℚ) - 0| ≤ 1 ∧ |(1 : ℚ) - 2| ≤ 1 ∧ (0 : ℚ) ≠ 2 ∧
      dedupCloseFl roundDouble [0, 1, 2] 1 = [0, 2] ∧
      |roundDouble (1 - 0)| ≤ 1 ∧ |roundDouble (1 - 2)| ≤ 1 := by
  refine ⟨?_, by simp, by norm_num, by norm_num, by norm_num, ?_, ?_, ?_⟩
  · norm_num [dedupClose, sortAsc, dedupLoop]
  · norm_num [dedupCloseFl, sortAsc, dedupLoopFl, roundDouble_one, roundDouble_two]
  · norm_num [roundDouble_one]
  · norm_num [roundDouble_neg_one]

/-- Two distinct returned values: the rounded difference of one from the other exceeds
`eps`. -/
theorem dedupCloseFl_apart {fl : ℚ → ℚ} (hfl : IsRounding fl) (xs : List ℚ) (eps : ℚ)
    {a b : ℚ} (ha : a ∈ dedupCloseFl fl xs eps) (hb : b ∈ dedupCloseFl fl xs eps)
    (hab : a ≠ b) : (a ≤ b ∧ eps < fl (b - a)) ∨ (b ≤ a ∧ eps < fl (a - b)) := by
  have hp : List.Pairwise
      (fun a b : ℚ => (a ≤ b ∧ eps < fl (b - a)) ∨ (b ≤ a ∧ eps < fl (a - b)))
      (dedupCloseFl fl xs eps) := by
    refine List.Pairwise.imp ?_
      (List.Pairwise.and (dedupCloseFl_sorted fl xs eps) (dedupCloseFl_pairwise hfl xs eps))
    intro a b h
    exact Or.inl h
  have hsymm : Symmetric
      (fun a b : ℚ => (a ≤ b ∧ eps < fl (b - a)) ∨ (b ≤ a ∧ eps < fl (a - b))) := by
    intro a b h
    exact h.symm
  exact List.Pairwise.forall hsymm hp ha hb hab

/-- C8, amended: for a monotone rounding and `eps >= 0` every input value `v` has at
least one returned value whose computed (rounded) difference from `v` is at most `eps`
in magnitude, and exactly one returned value `r` has `r <= v` and that property. -/
theorem dedupCloseFl_unique_lower_representative (fl : ℚ → ℚ) (hfl : IsRounding fl)
    (xs : List ℚ) (eps : ℚ) (heps : 0 ≤ eps) (v : ℚ) (hv : v ∈ xs) :
    (∃ r ∈ dedupCloseFl fl xs eps, |fl (v - r)| ≤ eps) ∧
    ∃! r, r ∈ dedupCloseFl fl xs eps ∧ r ≤ v ∧ |fl (v - r)| ≤ eps := by
  obtain ⟨r, hr, hrv, hclose⟩ := dedupCloseFl_cover hfl xs heps hv
  refine ⟨⟨r, hr, hclose⟩, r, ⟨hr, hrv, hclose⟩, ?_⟩
  rintro r2 ⟨hr2, hr2v, hclose2⟩
  rw [hfl.abs_sub hrv] at hclose
  rw [hfl.abs_sub hr2v] at hclose2
  by_contra hne
  rcases dedupCloseFl_apart hfl xs eps hr2 hr hne with ⟨_, h⟩ | ⟨_, h⟩
  · have := hfl.mono (r - r2) (v - r2) (by linarith)
    linarith
  · have := hfl.mono (r2 - r) (v - r) (by linarith)
    linarith

/-- Witness for the amended C8 in double arithmetic on `[0, 1, 2]` with `eps = 1` and the
value `1`. -/
theorem dedupCloseFl_unique_lower_representative_witness :
    IsRounding roundDouble ∧ (0 : ℚ) ≤ 1 ∧ (1 : ℚ) ∈ ([0, 1, 2] : List ℚ) ∧
    (∃ r ∈ dedupCloseFl roundDouble [0, 1, 2] 1, |roundDouble (1 - r)| ≤ 1) ∧
    ∃! r, r ∈ dedupCloseFl roundDouble [0, 1, 2] 1 ∧ r ≤ (1 : ℚ) ∧ |roundDouble (1 - r)| ≤ 1 :=
  ⟨roundDouble_isRounding, by norm_num, by simp,
    dedupCloseFl_unique_lower_representative roundDouble roundDouble_isRounding [0, 1, 2] 1
      (by norm_num) 1 (by simp)⟩

/-! ## Claims about `existsNear` in double arithmetic -/

theorem libstdcxxSortByX_tiedPoints (heapSort : List Point → List Point) :
    libstdcxxSortByX heapSort tiedPoints.pts = tiedPointsSorted.pts := by
  simp [libstdcxxSortByX, stdSort, tiedPoints, tiedPointsSorted, introsortLoop,
    unguardedPartitionPivot, moveMedianToFirst, swapAt, unguardedPartition, scanUp, scanDown,
    finalInsertionSort, insertLast, Nat.log2]

theorem libstdcxxSortByX_tiedPointsSorted (heapSort : List Point → List Point) :
    libstdcxxSortByX heapSort tiedPointsSorted.pts = tiedPointsSortedTwice.pts := by
  simp [libstdcxxSortByX, stdSort, tiedPointsSorted, tiedPointsSortedTwice, introsortLoop,
    unguardedPartitionPivot, moveMedianToFirst, swapAt, unguardedPartition, scanUp, scanDown,
    finalInsertionSort, insertLast, Nat.log2]

/-- With `minDist = 0` and all coordinates equal the scan keeps every point. -/
theorem keepLoopFl_zero_of_tied (fl : ℚ → ℚ) (c : ℚ) (l : List Point)
    (hl : ∀ p ∈ l, p.x = c) : keepLoopFl fl 0 c l = l := by
  induction l with
  | nil => rfl
  | cons p rest ih =>
    have hp : p.x = c := hl p (List.mem_cons_self _ _)
    have hkeep : (0 : ℚ) ≤ |fl (p.x - c)| := abs_nonneg _
    rw [keepLoopFl_cons_keep rest hkeep, hp, ih (fun q hq => hl q (List.mem_cons_of_mem _ hq))]

/-- C3, counterexample: seventeen points with equal coordinates and `d = 0`. Whatever the
heap sort (never reached here), `std::sort` of libstdc++ partitions a range of more than
16 elements and leaves points of equal coordinate in another order each time it runs,
so the filter applied to its own output returns the points in a different order, in
double arithmetic and over exact arithmetic alike. -/
theorem filterByMinDistance_not_idempotent_libstdcxx :
    tiedPointsSorted ≠ tiedPointsSortedTwice ∧ (0 : ℚ) ≤ 0 ∧
    ∀ heapSort : List Point → List Point,
      filterByMinDistanceFl roundDouble (libstdcxxSortByX heapSort) tiedPoints 0
        = .ok tiedPointsSorted ∧
      filterByMinDistanceFl roundDouble (libstdcxxSortByX heapSort) tiedPointsSorted 0
        = .ok tiedPointsSortedTwice ∧
      filterByMinDistance (libstdcxxSortByX heapSort) tiedPoints 0 = .ok tiedPointsSorted ∧
      filterByMinDistance (libstdcxxSortByX heapSort) tiedPointsSorted 0
        = .ok tiedPointsSortedTwice := by
  refine ⟨by simp [tiedPointsSorted, tiedPointsSortedTwice], le_refl 0, ?_⟩
  intro heapSort
  have hfl : ∀ fl : ℚ → ℚ,
      filterByMinDistanceFl fl (libstdcxxSortByX heapSort) tiedPoints 0 = .ok tiedPointsSorted ∧
      filterByMinDistanceFl fl (libstdcxxSortByX heapSort) tiedPointsSorted 0
        = .ok tiedPointsSortedTwice := by
    intro fl
    constructor
    · unfold filterByMinDistanceFl
      rw [libstdcxxSortByX_tiedPoints heapSort]
      rw [if_neg (by norm_num), if_neg (by simp [tiedPoints])]
      have h := keepLoopFl_zero_of_tied fl 1 tiedPointsSorted.pts.tail
        (by simp [tiedPointsSorted])
      simp only [tiedPointsSorted, List.tail_cons] at h ⊢
      rw [h]
    · unfold filterByMinDistanceFl
      rw [libstdcxxSortByX_tiedPointsSorted heapSort]
      rw [if_neg (by norm_num), if_neg (by simp [tiedPointsSorted])]
      have h := keepLoopFl_zero_of_tied fl 1 tiedPointsSortedTwice.pts.tail
        (by simp [tiedPointsSortedTwice])
      simp only [tiedPointsSortedTwice, List.tail_cons] at h ⊢
      rw [h]
  have h1 := hfl roundDouble
  have h2 := hfl id
  rw [filterByMinDistanceFl_id, filterByMinDistanceFl_id] at h2
  exact ⟨h1.1, h1.2, h2.1, h2.2⟩

/-! ## `hasRegularSpacing` in double arithmetic -/

theorem keepLoopFl_idem (fl : ℚ → ℚ) (d : ℚ) (l : List Point) :
    ∀ last, keepLoopFl fl d last (keepLoopFl fl d last l) = keepLoopFl fl d last l := by
  induction l with
  | nil => intro last; simp [keepLoopFl]
  | cons p rest ih =>
    intro last
    by_cases h : d ≤ |fl (p.x - last)|
    · rw [keepLoopFl_cons_keep rest h, keepLoopFl_cons_keep _ h, ih p.x]
    · rw [keepLoopFl_cons_skip rest h, ih last]

theorem filteredPtsFl_fixed {fl : ℚ → ℚ} {sortPts : List Point → List Point}
    (hs : IsSortByX sortPts) (S : PointSet) (d : ℚ)
    (hstrict : List.Pairwise (fun a b : Point => a.x < b.x) (filteredPtsFl fl sortPts S d)) :
    filteredPtsFl fl sortPts ⟨filteredPtsFl fl sortPts S d⟩ d = filteredPtsFl fl sortPts S d := by
  have hfix := hs.fixes_strict hstrict
  unfold filteredPtsFl at hfix ⊢
  simp only
  rw [hfix]
  cases sortPts S.pts with
  | nil => rfl
  | cons v0 rest => simp only [keepLoopFl_idem]

/-- Idempotence in double arithmetic: for a monotone rounding and `d > 0`, or for `d = 0`
and pairwise distinct input coordinates, filtering the result of the filter again
returns it unchanged. -/
theorem filterByMinDistanceFl_idempotent (fl : ℚ → ℚ) (hfl : IsRounding fl)
    (sortPts : List Point → List Point) (hs : IsSortByX sortPts) (S : PointSet) (d : ℚ)
    (hd : 0 ≤ d) (hties : 0 < d ∨ (S.pts.map (·.x)).Nodup) :
    ∃ out, filterByMinDistanceFl fl sortPts S d = .ok out ∧
      filterByMinDistanceFl fl sortPts out d = .ok out := by
  have hfixed : filteredPtsFl fl sortPts ⟨filteredPtsFl fl sortPts S d⟩ d
      = filteredPtsFl fl sortPts S d := by
    rcases hties with hpos | hnd
    · refine filteredPtsFl_fixed hs S d
        (List.Pairwise.imp ?_ (filteredPtsFl_pairwise hfl hs S d))
      intro a b h
      by_contra hle
      have h0 := hfl.mono (b.x - a.x) 0 (by linarith)
      rw [hfl.zero] at h0
      linarith
    · have hnd2 : ((sortPts S.pts).map (·.x)).Nodup :=
        (List.Perm.nodup_iff ((hs.perm S.pts).map _)).mpr hnd
      unfold List.Nodup at hnd2
      rw [List.pairwise_map] at hnd2
      refine filteredPtsFl_fixed hs S d
        (List.Pairwise.sublist (filteredPtsFl_sublist fl sortPts S d) ?_)
      refine List.Pairwise.imp ?_ (List.Pairwise.and (hs.ascending S.pts) hnd2)
      intro a b h
      exact lt_of_le_of_ne h.1 h.2
  refine ⟨⟨filteredPtsFl fl sortPts S d⟩, filterByMinDistanceFl_eq fl hs S hd, ?_⟩
  rw [filterByMinDistanceFl_eq fl hs _ hd]
  exact congrArg (fun l => Except.ok (PointSet.mk l)) hfixed

end Nokomis
